import Mathlib

/-!
A verification development for the `sizegen` code generator
(go/tools/sizegen/sizegen.go): a build-time tool that synthesizes
`CachedSize` methods computing the retained heap footprint of Go values.

The Go program is shallowly embedded: the type graph of the loaded program
is a finite environment of named-type records, the walker and the method
synthesizer produce an abstract statement tree mirroring the jen code the
tool emits, and the registry / code collection are explicit state threaded
through the functions.  External collaborators (the go/types size oracle,
the `types.Implements` query) are parameters of the context.
-/

set_option maxHeartbeats 1000000

namespace Sizegen

/-- Kinds of Go basic (primitive) types, as far as the generator inspects
them: `isPod` and the walker only distinguish strings and unsafe pointers
from everything else; `kOther` carries the byte width for size oracles. -/
inductive BasicKind where
  | kString
  | kRawPtr
  | kOther (width : Nat)
deriving DecidableEq, Repr

mutual
/-- Structural form of a Go type as seen by sizegen.  Named types are
references (indices) into the environment of named-type records, which
makes cyclic type graphs representable.  `iface` carries an identifier used
by the `types.Implements` oracle.  `other` stands for the type kinds the
generator does not handle (it logs and contributes nothing). -/
inductive GoType where
  | basic (kind : BasicKind)
  | struct (fields : GoFields)
  | slice (elem : GoType)
  | map (key : GoType) (value : GoType)
  | ptr (elem : GoType)
  | iface (empty : Bool) (ifaceId : Nat)
  | named (id : Nat)
  | other

/-- The ordered field list of a struct type (name and field type). -/
inductive GoFields where
  | nil
  | cons (name : String) (ty : GoType) (rest : GoFields)
end

mutual
/-- `isPod` from sizegen.go: a struct is plain-old-data iff every field is;
a basic type is POD unless it is a string or an unsafe pointer; every other
kind (slice, map, pointer, interface, named, unknown) is not POD. -/
def isPod : GoType → Bool
  | .struct fields => isPodFields fields
  | .basic .kString => false
  | .basic .kRawPtr => false
  | .basic (.kOther _) => true
  | _ => false

/-- The field loop of `isPod` on a struct (`for i := 0; i < NumFields`). -/
def isPodFields : GoFields → Bool
  | .nil => true
  | .cons _ t rest => isPod t && isPodFields rest
end

mutual
/-- All named-type references occurring inside a type are below `n`
(the size of the environment).  Well-formedness side condition of the
embedding: in a loaded Go program every `*types.Named` resolves. -/
def idsBelow (n : Nat) : GoType → Bool
  | .struct fields => fieldsIdsBelow n fields
  | .slice e => idsBelow n e
  | .map k v => idsBelow n k && idsBelow n v
  | .ptr e => idsBelow n e
  | .named id => decide (id < n)
  | _ => true

/-- `idsBelow` over a struct's field list. -/
def fieldsIdsBelow (n : Nat) : GoFields → Bool
  | .nil => true
  | .cons _ t rest => idsBelow n t && fieldsIdsBelow n rest
end

/-- Character-list core of `strings.HasPrefix`: is the first list a prefix
of the second. -/
def listIsPfx : List Char → List Char → Bool
  | [], _ => true
  | _ :: _, [] => false
  | a :: as, b :: bs => a = b && listIsPfx as bs

/-- `strings.HasPrefix(s, pre)`. -/
def hasPfx (s pre : String) : Bool := listIsPfx pre.data s.data

/-- Record of a named type in the loaded program: declaring package path,
declaring package short name, type name, and the underlying (unnamed)
structural form. -/
structure NamedInfo where
  pkgPath : String
  pkgName : String
  name : String
  underlying : GoType

/-- `typeState` from sizegen.go: the registry entry of a named type. -/
structure TypeState where
  generated : Bool
  isLocal : Bool
  pod : Bool
deriving DecidableEq, Repr

/-- The registry `known` (Go: `map[*types.Named]*typeState`), modelled as
an association list keyed by the named type's environment index. -/
abbrev Known := List (Nat × TypeState)

/-- The context of one generator run: module descriptor, the size oracle
(`types.Sizes.Sizeof`), the environment of named types, and the
`types.Implements` oracle for value and pointer forms. -/
structure SGCtx where
  modPath : String
  modDir : String
  debugTypes : Bool
  sz : GoType → Nat
  env : List NamedInfo
  implementsVal : Nat → Nat → Bool
  implementsPtr : Nat → Nat → Bool

/-- Resolve a named-type index in the environment (total, with an inert
default that no well-formed run reaches). -/
def envInfo (ctx : SGCtx) (id : Nat) : NamedInfo :=
  (ctx.env[id]?).getD ⟨"", "", "", .other⟩

/-- The underlying structural form of named type `id`. -/
def underlyingOf (ctx : SGCtx) (id : Nat) : GoType :=
  (envInfo ctx id).underlying

/-- `named.String()`: the fully qualified name `pkgpath.Name`. -/
def qnameOf (ctx : SGCtx) (id : Nat) : String :=
  (envInfo ctx id).pkgPath ++ (".") ++ (envInfo ctx id).name

/-- Whether named type `id` is locally owned, as `getKnownType` computes
it: `strings.HasPrefix(named.Obj().Pkg().Path(), sizegen.mod.Path)`. -/
def localOf (ctx : SGCtx) (id : Nat) : Bool :=
  hasPfx (envInfo ctx id).pkgPath ctx.modPath

/-- Whether named type `id` is POD, as `getKnownType` computes it
(`isPod(named.Underlying())`). -/
def podOf (ctx : SGCtx) (id : Nat) : Bool :=
  isPod (underlyingOf ctx id)

/-- Assoc-list lookup in the registry. -/
def findTS : Known → Nat → Option TypeState
  | [], _ => none
  | p :: rest, id => if p.1 = id then some p.2 else findTS rest id

/-- `getKnownType` from sizegen.go: look up a named type in the registry,
creating the entry on first sight with `local` = HasPrefix(pkg path,
module path), `pod` = isPod(underlying), `generated` = false. -/
def getKnownType (ctx : SGCtx) (known : Known) (id : Nat) : TypeState × Known :=
  match findTS known id with
  | some ts => (ts, known)
  | none =>
    let ts : TypeState :=
      { generated := false
        isLocal := localOf ctx id
        pod := podOf ctx id }
    (ts, (id, ts) :: known)

/-- `ts.generated = true` on the registry entry of `id` (pointer mutation
in the Go code). -/
def setGenerated : Known → Nat → Known
  | [], _ => []
  | p :: rest, id =>
    (if p.1 = id then (p.1, { p.2 with generated := true }) else p) :: setGenerated rest id

/-- Whether the registry currently records `id` as generated. -/
def generatedIn (known : Known) (id : Nat) : Bool :=
  match findTS known id with
  | some ts => ts.generated
  | none => false

end Sizegen

namespace Sizegen

/-! ### Basic registry lemmas -/

theorem findTS_cons (p : Nat × TypeState) (k : Known) (j : Nat) :
    findTS (p :: k) j = if p.1 = j then some p.2 else findTS k j := rfl

theorem findTS_getKnownType_self (ctx : SGCtx) (k : Known) (id : Nat) :
    findTS (getKnownType ctx k id).2 id = some (getKnownType ctx k id).1 := by
  unfold getKnownType
  cases h : findTS k id with
  | some ts => simp [h]
  | none => simp [findTS, h]

theorem getKnownType_known_of_found (ctx : SGCtx) (k : Known) (id : Nat)
    (ts : TypeState) (h : findTS k id = some ts) :
    getKnownType ctx k id = (ts, k) := by
  unfold getKnownType; rw [h]

theorem findTS_getKnownType (ctx : SGCtx) (k : Known) (id j : Nat) :
    findTS (getKnownType ctx k id).2 j = findTS k j ∨
      (findTS k j = none ∧
        findTS (getKnownType ctx k id).2 j =
          some ⟨false, localOf ctx id, podOf ctx id⟩) := by
  unfold getKnownType
  cases h : findTS k id with
  | some ts => simp
  | none =>
    by_cases hij : id = j
    · subst hij; right; simp [findTS, h]
    · left; simp [findTS, hij]

/-- `getKnownType` never flips a generated flag: an entry already present
is untouched, and a fresh entry is created with `generated = false`. -/
theorem generatedIn_getKnownType (ctx : SGCtx) (k : Known) (id j : Nat) :
    generatedIn (getKnownType ctx k id).2 j = generatedIn k j := by
  unfold generatedIn
  rcases findTS_getKnownType ctx k id j with h | ⟨h1, h2⟩
  · rw [h]
  · rw [h1, h2]

/-- The `generated` field returned by `getKnownType` agrees with the
registry state before the call. -/
theorem getKnownType_fst_generated (ctx : SGCtx) (k : Known) (id : Nat) :
    (getKnownType ctx k id).1.generated = generatedIn k id := by
  unfold getKnownType generatedIn
  cases h : findTS k id <;> simp

theorem findTS_setGenerated (k : Known) (id j : Nat) :
    findTS (setGenerated k id) j =
      if id = j then (findTS k j).map (fun ts => { ts with generated := true })
      else findTS k j := by
  induction k with
  | nil => simp [setGenerated, findTS]
  | cons p rest ih =>
    by_cases hid : p.1 = id
    · by_cases hpj : p.1 = j
      · have hij : id = j := by rw [← hid, hpj]
        simp [setGenerated, findTS, hid, hpj, hij]
      · have hij : ¬ id = j := by rw [← hid]; exact hpj
        simp [setGenerated, findTS, hid, hpj, hij, ih]
    · by_cases hpj : p.1 = j
      · have hij : ¬ id = j := fun h => hid (by rw [hpj, h])
        simp only [setGenerated, if_neg hid, findTS, if_pos hpj, if_neg hij]
      · simp [setGenerated, findTS, hid, hpj, ih]

theorem generatedIn_setGenerated_self (k : Known) (id : Nat) (ts : TypeState)
    (h : findTS k id = some ts) :
    generatedIn (setGenerated k id) id = true := by
  unfold generatedIn
  rw [findTS_setGenerated, if_pos rfl, h]
  rfl

theorem generatedIn_setGenerated_mono (k : Known) (id j : Nat)
    (h : generatedIn k j = true) :
    generatedIn (setGenerated k id) j = true := by
  unfold generatedIn at h ⊢
  rw [findTS_setGenerated]
  by_cases hij : id = j
  · cases hts : findTS k j with
    | none => rw [hts] at h; exact absurd h (by simp)
    | some ts => simp [hij, hts]
  · simp only [if_neg hij]; exact h

/-! ### The abstract emitted-code tree

sizegen builds `jen.Code` values; the embedding represents the statements
the tool actually constructs as a small statement language.  Each
constructor corresponds to one fixed jen pattern in sizegen.go. -/

/-- Symbolic reference to the value being accounted for in generated code
(`cached.Field`, `elem`, `k`, `v`). -/
inductive GoExpr where
  | id (name : String)
  | dot (base : GoExpr) (field : String)
deriving DecidableEq, Repr

/-- One statement of the generated `CachedSize` method body. -/
inductive GoStmt where
  /-- `// fieldname type` debug comment -/
  | comment (text : String)
  /-- `size += n` -/
  | addLit (n : Nat)
  /-- `size += int64(cap(f))` -/
  | addCap (field : GoExpr)
  /-- `size += int64(cap(f)) * n` -/
  | addCapMul (field : GoExpr) (n : Nat)
  /-- `size += int64(len(f))` -/
  | addLen (field : GoExpr)
  /-- `size += f.CachedSize(alloc)` -/
  | addCachedSize (field : GoExpr) (alloc : Bool)
  /-- `if cc, ok := f.(cachedObject); ok { size += cc.CachedSize(true) }` -/
  | ifaceGuard (field : GoExpr)
  /-- `if f != nil { body }` -/
  | ifNotNil (field : GoExpr) (body : List GoStmt)
  /-- `{ body }` -/
  | block (body : List GoStmt)
  /-- `for _, elem := range f { body }` -/
  | forRangeSlice (field : GoExpr) (body : GoStmt)
  /-- `for k, v := range f { body }` (with `_` for an unused variable) -/
  | forRangeMap (field : GoExpr) (useK : Bool) (useV : Bool) (body : List GoStmt)
  /-- `hmap := reflect.ValueOf(f)` -/
  | declHmap (field : GoExpr)
  /-- `numBuckets := int(math.Pow(2, float64(...probe at offset 9...)))` -/
  | declNumBuckets
  /-- `numOldBuckets := (*(*uint16)(...probe at offset 10...))` -/
  | declNumOldBuckets
  /-- `size += int64(numOldBuckets * b)` (uint16 multiplication) -/
  | addOldBuckets (b : Nat)
  /-- `if len(f) > 0 || numBuckets > 1 { size += int64(numBuckets * b) }` -/
  | ifBucketsGuard (field : GoExpr) (b : Nat)
  /-- `if cached == nil { return int64(0) }` -/
  | ifNilReturnZero
  /-- `size := int64(0)` -/
  | declSizeZero
  /-- `if alloc { size += n }` -/
  | ifAllocAdd (n : Nat)
  /-- `return size` -/
  | returnSize

/-- `codeFlag` from sizegen.go: `codeWithInterface` and the unsafe-access
flag (named `withProbe` here because the generated code probes the live
map header through a raw pointer). -/
structure CodeFlag where
  withInterface : Bool
  withProbe : Bool
deriving DecidableEq, Repr

/-- The zero `codeFlag`. -/
def flagNone : CodeFlag := ⟨false, false⟩

/-- Bitwise or of two flag sets (`funcFlags |= flag`). -/
def CodeFlag.union (a b : CodeFlag) : CodeFlag :=
  ⟨a.withInterface || b.withInterface, a.withProbe || b.withProbe⟩

/-- `sizeStmtForMap` from sizegen.go: the statements charging the map
header and the bucket arrays.  `bucketCnt = 8`, `sizeofHmap = 6*8`, and
`sizeOfBucket = bucketCnt + bucketCnt*sizeof(K) + bucketCnt*sizeof(V) + 8`
(tophash bytes, keys, elems, overflow pointer). -/
def sizeStmtForMap (ctx : SGCtx) (fieldName : GoExpr) (keyT valT : GoType) :
    List GoStmt :=
  let bucketCnt : Nat := 8
  let sizeofHmap : Nat := 6 * 8
  let sizeOfBucket : Nat :=
    bucketCnt + bucketCnt * ctx.sz keyT + bucketCnt * ctx.sz valT + 8
  [ .addLit sizeofHmap,
    .declHmap fieldName,
    .declNumBuckets,
    .declNumOldBuckets,
    .addOldBuckets sizeOfBucket,
    .ifBucketsGuard fieldName sizeOfBucket ]

/-- `sizeStmtForType` from sizegen.go: the walker.  Produces the statement
accounting for one field of the given type (`none` when the field
contributes nothing), the code flags, and the updated registry.  `alloc`
is the under-pointer flag.  The recursion of the Go function is not
structural over the type graph (named types recurse through the
environment), so the embedding uses explicit fuel; every theorem below is
stated at a fuel large enough that the branch under scrutiny is exact. -/
def sizeStmtForType (ctx : SGCtx) :
    Nat → Known → GoExpr → GoType → Bool → Option GoStmt × CodeFlag × Known
  | 0, known, _, _, _ => (none, flagNone, known)
  | fuel + 1, known, fieldName, field, alloc =>
    if ctx.sz field = 0 then (none, flagNone, known)
    else
      match field with
      | .slice elemT =>
        match ctx.sz elemT with
        | 0 => (none, flagNone, known)
        | 1 => (some (.addCap fieldName), flagNone, known)
        | _ =>
          let r := sizeStmtForType ctx fuel known (.id ("elem")) elemT false
          (some (.block ([.addCapMul fieldName (ctx.sz elemT)] ++
              (match r.1 with
               | some s => [.forRangeSlice fieldName s]
               | none => []))),
           r.2.1, r.2.2)
      | .map keyT valT =>
        let rk := sizeStmtForType ctx fuel known (.id ("k")) keyT false
        let rv := sizeStmtForType ctx fuel rk.2.2 (.id ("v")) valT false
        let loop : List GoStmt :=
          match rk.1, rv.1 with
          | some ks, some vs => [.forRangeMap fieldName true true [ks, vs]]
          | none, some vs => [.forRangeMap fieldName false true [vs]]
          | some ks, none => [.forRangeMap fieldName true false [ks]]
          | none, none => []
        (some (.ifNotNil fieldName (sizeStmtForMap ctx fieldName keyT valT ++ loop)),
         CodeFlag.union ⟨false, true⟩ (CodeFlag.union rk.2.1 rv.2.1), rv.2.2)
      | .ptr elemT => sizeStmtForType ctx fuel known fieldName elemT true
      | .named id =>
        let g := getKnownType ctx known id
        if g.1.pod || !g.1.isLocal then
          if alloc then
            (some (.ifNotNil fieldName [.addLit (ctx.sz (underlyingOf ctx id))]),
             flagNone, g.2)
          else (none, flagNone, g.2)
        else sizeStmtForType ctx fuel g.2 fieldName (underlyingOf ctx id) alloc
      | .iface empty _ =>
        if empty then (none, flagNone, known)
        else (some (.ifaceGuard fieldName), ⟨true, false⟩, known)
      | .struct _ => (some (.addCachedSize fieldName alloc), flagNone, known)
      | .basic kind =>
        if !alloc then
          if kind = .kString then (some (.addLen fieldName), flagNone, known)
          else (none, flagNone, known)
        else (some (.addLit (ctx.sz field)), flagNone, known)
      | .other => (none, flagNone, known)

/-! ### A concrete 64-bit size oracle and example contexts, used by the
closed instances below. -/

/-- A simple size oracle in the spirit of `types.SizesFor("gc", "amd64")`:
strings are 16 bytes, slices 24, maps (the header word) 8, pointers 8,
interfaces 16.  Only used to instantiate theorems on concrete inputs. -/
def sz64 : GoType → Nat
  | .basic .kString => 16
  | .basic .kRawPtr => 8
  | .basic (.kOther w) => w
  | .slice _ => 24
  | .map _ _ => 8
  | .ptr _ => 8
  | .iface _ _ => 16
  | .named _ => 16
  | .struct _ => 16
  | .other => 0

/-- A context over the module `m` with a given environment and a
never-satisfied implements oracle. -/
def baseCtx (env : List NamedInfo) : SGCtx :=
  ⟨("m"), ("/d"), true, sz64, env, fun _ _ => false, fun _ _ => false⟩

/-! ### C4: the POD classifier against the spec's wording -/

mutual
/-- The POD classifier exactly as the claim words it (spec side of the
refinement): a struct is POD iff every field type is POD; a primitive is
POD iff its kind is neither string nor unsafe pointer; every other kind
(slice, map, pointer, interface, named, unknown) is not POD. -/
def specIsPod : GoType → Bool
  | .basic k => !(k = .kString || k = .kRawPtr)
  | .struct fields => specFieldsPod fields
  | .slice _ => false
  | .map _ _ => false
  | .ptr _ => false
  | .iface _ _ => false
  | .named _ => false
  | .other => false

/-- "every field type is POD" over the ordered field list. -/
def specFieldsPod : GoFields → Bool
  | .nil => true
  | .cons _ t rest => specIsPod t && specFieldsPod rest
end

mutual
theorem isPodAuxEq : (t : GoType) → isPod t = specIsPod t
  | .basic .kString => rfl
  | .basic .kRawPtr => rfl
  | .basic (.kOther _) => rfl
  | .struct fs => by
    rw [show isPod (.struct fs) = isPodFields fs from rfl,
      show specIsPod (.struct fs) = specFieldsPod fs from rfl]
    exact isPodFieldsAuxEq fs
  | .slice _ => rfl
  | .map _ _ => rfl
  | .ptr _ => rfl
  | .iface _ _ => rfl
  | .named _ => rfl
  | .other => rfl

theorem isPodFieldsAuxEq : (fs : GoFields) → isPodFields fs = specFieldsPod fs
  | .nil => rfl
  | .cons _ t rest => by
    rw [show isPodFields (.cons _ t rest) = (isPod t && isPodFields rest) from rfl,
      show specFieldsPod (.cons _ t rest) = (specIsPod t && specFieldsPod rest) from rfl,
      isPodAuxEq t, isPodFieldsAuxEq rest]
end

/-- C4: the POD classifier `isPod` returns true for a struct type iff
every field type is POD, returns true for a primitive type iff its kind is
neither string nor unsafe pointer, and returns false for every other type
kind (slice, map, pointer, interface, named), as captured by the spec-side
predicate `specIsPod`. -/
theorem isPod_matches_spec : ∀ t : GoType, isPod t = specIsPod t :=
  isPodAuxEq

/-! ### C1: the `local` flag of a fresh registry entry -/

/-- Environment with one named type declared in a package strictly inside
the module root: the module root is a prefix of the package path but not
conversely. -/
def infoC1 : NamedInfo :=
  ⟨("vitess.io/vitess/go/sqltypes"), ("sqltypes"), ("Value"), .struct .nil⟩

/-- Singleton environment holding `infoC1`. -/
def envC1 : List NamedInfo := [infoC1]

/-- Context over `envC1` for the module `vitess.io/vitess`. -/
def ctxC1 : SGCtx :=
  ⟨("vitess.io/vitess"), ("/src/vitess"), true, sz64, envC1,
    fun _ _ => false, fun _ _ => false⟩

/-- C1 counterexample: for the type `vitess.io/vitess/go/sqltypes.Value`
first looked up under module root `vitess.io/vitess`, the registry entry
is created with `local = true`, yet the declaring package path is NOT a
prefix of the module root path — refuting the claimed iff (the claim has
the prefix direction backwards). -/
theorem getKnownType_local_prefix_counterexample :
    ((getKnownType ctxC1 [] 0).1.isLocal = true) ∧
      hasPfx ("vitess.io/vitess") ("vitess.io/vitess/go/sqltypes") = false := by
  exact ⟨by decide, by decide⟩

/-- C1 (amended): on first lookup, the `local` flag of the created entry
is true iff the configured module root path is a prefix of the type's
declaring package path (`strings.HasPrefix(pkgPath, mod.Path)`). -/
theorem getKnownType_local_iff (ctx : SGCtx) (known : Known) (id : Nat)
    (info : NamedInfo) (hfresh : findTS known id = none)
    (hinfo : ctx.env[id]? = some info) :
    (getKnownType ctx known id).1.isLocal = hasPfx info.pkgPath ctx.modPath := by
  unfold getKnownType
  rw [hfresh]
  simp [localOf, envInfo, hinfo]

/-- Witness for C1 (amended) at a concrete input: fresh registry, valid
environment index. -/
theorem getKnownType_local_iff_witness :
    findTS [] 0 = none ∧ envC1[0]? = some infoC1 ∧
      (getKnownType ctxC1 [] 0).1.isLocal = hasPfx infoC1.pkgPath ctxC1.modPath := by
  refine ⟨rfl, rfl, ?_⟩
  exact getKnownType_local_iff ctxC1 [] 0 infoC1 rfl rfl

/-! ### C2: the bucket charges of the map statement -/

/-- Runtime observation of a live map as the generated statements read it:
`len(m)`, the bucket count recovered by the probe (`2^B`), and the
old-bucket count (a `uint16`). -/
structure MapRt where
  len : Nat
  buckets : Nat
  oldBuckets : Nat

/-- How much one statement of the map-charging sequence adds to `size` at
runtime state `rt`.  The old-buckets product is carried out in `uint16`
(the generated expression `numOldBuckets * lit` multiplies two `uint16`
values before the `int64` conversion), hence the mod 65536. -/
def mapStmtCharge (rt : MapRt) : GoStmt → Nat
  | .addLit n => n
  | .addOldBuckets b => (rt.oldBuckets % 65536) * b % 65536
  | .ifBucketsGuard _ b => if 0 < rt.len ∨ 1 < rt.buckets then rt.buckets * b else 0
  | _ => 0

/-- Total amount the map-charging sequence adds to `size`. -/
def mapCharge (rt : MapRt) (stmts : List GoStmt) : Nat :=
  (stmts.map (mapStmtCharge rt)).sum

/-- C2 counterexample: for a `map[int64]int64` field observed empty
(`len = 0`, one bucket, no old buckets), the generated statements add only
the 48-byte header — not header plus `(buckets + old_buckets) *
bucket_struct_size = 48 + (1+0)*144` as the claim's unconditional reading
demands: the buckets term is guarded by `len > 0 || numBuckets > 1`. -/
theorem mapCharge_empty_counterexample :
    mapCharge ⟨0, 1, 0⟩
        (sizeStmtForMap (baseCtx []) (.id ("m"))
          (.basic (.kOther 8)) (.basic (.kOther 8))) = 48 ∧
      (48 : Nat) ≠ 48 + (1 + 0) * 144 := by
  exact ⟨by decide, by decide⟩

/-- C2 (amended): with `B = 8 + 8*sizeof(K) + 8*sizeof(V) + 8`, the map
statements add the 48-byte static header, plus `old_buckets * B`
unconditionally (computed in uint16 arithmetic), plus `buckets * B` only
under the guard `len > 0 || buckets > 1`. -/
theorem mapCharge_eq (ctx : SGCtx) (f : GoExpr) (keyT valT : GoType) (rt : MapRt) :
    mapCharge rt (sizeStmtForMap ctx f keyT valT) =
      48 + (rt.oldBuckets % 65536) * (8 + 8 * ctx.sz keyT + 8 * ctx.sz valT + 8) % 65536
        + (if 0 < rt.len ∨ 1 < rt.buckets
           then rt.buckets * (8 + 8 * ctx.sz keyT + 8 * ctx.sz valT + 8) else 0) := by
  simp [mapCharge, sizeStmtForMap, mapStmtCharge]
  ring

/-! ### C6: the slice statement -/

/-- Whether a statement is a `for ... range` loop over a slice. -/
def isForRangeB : GoStmt → Bool
  | .forRangeSlice _ _ => true
  | _ => false

/-- Whether the produced statement contains an element loop at its top
level (directly, or as a member of its block). -/
def hasDirectLoop : GoStmt → Bool
  | .block l => l.any isForRangeB
  | .forRangeSlice _ _ => true
  | _ => false

/-- The `cap`-proportional charge of one statement. -/
def topCharge (cap : Nat) : GoStmt → Nat
  | .addCap _ => cap
  | .addCapMul _ n => cap * n
  | _ => 0

/-- The `cap`-proportional charge of the statement produced for a slice
field (summing over the members of its block, loop bodies excluded). -/
def sliceCharge (cap : Nat) : GoStmt → Nat
  | .block l => (l.map (topCharge cap)).sum
  | s => topCharge cap s

/-- Extract the statement from the walker's optional result. -/
def stmtOf : Option GoStmt → GoStmt
  | some s => s
  | none => .block []

/-- C6 counterexample: for a slice of a non-1-byte primitive element
(`[]int64`, element size 8), the generated statement is the `cap * 8`
charge alone with NO element loop — the recursive element walk produces
nothing — refuting the claim that in the `sizeof(T) != 1` case the charge
is always followed by a loop. -/
theorem sliceStmt_int64_counterexample :
    (sizeStmtForType (baseCtx []) 2 [] (.dot (.id ("cached")) ("xs"))
        (.slice (.basic (.kOther 8))) false).1 =
      some (.block [.addCapMul (.dot (.id ("cached")) ("xs")) 8]) ∧
      hasDirectLoop (.block [.addCapMul (.dot (.id ("cached")) ("xs")) 8]) = false := by
  exact ⟨rfl, rfl⟩

/-- C6 (amended): for a slice field of element type `T` with
`sizeof(T) ≠ 0` (and a nonzero slice size), the generated statement always
charges `cap * sizeof(T)`; it contains an element loop iff `sizeof(T) ≠ 1`
and the recursive walk of `T` as a non-pointer reference produces a
statement. -/
theorem sliceStmt_shape (ctx : SGCtx) (fuel : Nat) (known : Known)
    (fn : GoExpr) (elemT : GoType) (alloc : Bool)
    (h0 : ctx.sz (.slice elemT) ≠ 0) (h1 : ctx.sz elemT ≠ 0) (cap : Nat) :
    ((sizeStmtForType ctx (fuel + 1) known fn (.slice elemT) alloc).1.isSome = true) ∧
      sliceCharge cap
          (stmtOf (sizeStmtForType ctx (fuel + 1) known fn (.slice elemT) alloc).1) =
        cap * ctx.sz elemT ∧
      hasDirectLoop
          (stmtOf (sizeStmtForType ctx (fuel + 1) known fn (.slice elemT) alloc).1) =
        (if ctx.sz elemT = 1 then false
         else (sizeStmtForType ctx fuel known (.id ("elem")) elemT false).1.isSome) := by
  cases hsz : ctx.sz elemT with
  | zero => exact absurd hsz h1
  | succ m =>
    cases m with
    | zero =>
      simp only [sizeStmtForType, if_neg h0, hsz]
      exact ⟨rfl, by simp [stmtOf, sliceCharge, topCharge], by simp [stmtOf, hasDirectLoop]⟩
    | succ m2 =>
      simp only [sizeStmtForType, if_neg h0, hsz]
      cases hr : (sizeStmtForType ctx fuel known (.id ("elem")) elemT false).1 with
      | some s =>
        refine ⟨rfl, ?_, ?_⟩
        · simp [stmtOf, sliceCharge, topCharge]
        · simp [stmtOf, hasDirectLoop, isForRangeB]
      | none =>
        refine ⟨rfl, ?_, ?_⟩
        · simp [stmtOf, sliceCharge, topCharge]
        · simp [stmtOf, hasDirectLoop, isForRangeB]

/-! ### C5: shape of the synthesized `CachedSize` method -/

/-- The synthesized method for one named struct type: the receiver's type
name and the ordered statements of the body. -/
structure MethodImpl where
  typeName : String
  body : List GoStmt

/-- The field loop of `sizeImplForStruct`: for each field, in declaration
order, the walker is invoked on `cached.Field` with `alloc = false`; a
produced statement is appended (preceded, when `DebugTypes`, by a debug
comment), and the flags are accumulated regardless. -/
def structFieldStmts (ctx : SGCtx) (fuel : Nat) :
    Known → GoFields → List GoStmt × CodeFlag × Known
  | known, .nil => ([], flagNone, known)
  | known, .cons fname ftype rest =>
    let r := sizeStmtForType ctx fuel known (.dot (.id ("cached")) fname) ftype false
    let t := structFieldStmts ctx fuel r.2.2 rest
    ((match r.1 with
      | some s => (if ctx.debugTypes then [GoStmt.comment fname] else []) ++ [s]
      | none => []) ++ t.1,
     CodeFlag.union r.2.1 t.2.1, t.2.2)

/-- `sizeImplForStruct` from sizegen.go: returns no method when the struct
has static size zero; otherwise builds
`func (cached *N) CachedSize(alloc bool) int64` whose body is the nil
guard, the accumulator initialization, the conditional charge of the
struct's own static size, the per-field statements, and the return. -/
def sizeImplForStruct (ctx : SGCtx) (fuel : Nat) (known : Known)
    (shortName : String) (fields : GoFields) :
    Option MethodImpl × CodeFlag × Known :=
  if ctx.sz (.struct fields) = 0 then (none, flagNone, known)
  else
    let r := structFieldStmts ctx fuel known fields
    (some ⟨shortName,
        [.ifNilReturnZero, .declSizeZero, .ifAllocAdd (ctx.sz (.struct fields))]
          ++ r.1 ++ [.returnSize]⟩,
     r.2.1, r.2.2)

/-- Body of an optional method (empty when absent). -/
def bodyOf : Option MethodImpl → List GoStmt
  | some i => i.body
  | none => []

/-- Statements that may appear inside a method body as field
contributions: everything except the fixed prelude/return statements the
synthesizer itself lays down. -/
def isPlain : GoStmt → Bool
  | .ifNilReturnZero => false
  | .declSizeZero => false
  | .ifAllocAdd _ => false
  | .returnSize => false
  | _ => true

/-- Big-step evaluation of a method body under an oracle `contrib` giving
the runtime amount each field statement adds to the accumulator.
`recvNil` is whether the receiver is nil, `alloc` the method's boolean
argument.  Comments execute as no-ops. -/
def evalStmts (contrib : GoStmt → Nat) (recvNil alloc : Bool) :
    List GoStmt → Nat → Nat
  | [], acc => acc
  | s :: rest, acc =>
    match s with
    | .ifNilReturnZero =>
      if recvNil then 0 else evalStmts contrib recvNil alloc rest acc
    | .declSizeZero => evalStmts contrib recvNil alloc rest 0
    | .ifAllocAdd n =>
      evalStmts contrib recvNil alloc rest (if alloc then acc + n else acc)
    | .returnSize => acc
    | .comment _ => evalStmts contrib recvNil alloc rest acc
    | s' => evalStmts contrib recvNil alloc rest (acc + contrib s')

/-- The oracle's contribution of one statement, with comments counting 0. -/
def contribOf (contrib : GoStmt → Nat) : GoStmt → Nat
  | .comment _ => 0
  | s => contrib s

/-- Total oracle contribution of a statement list. -/
def sumContrib (contrib : GoStmt → Nat) (stmts : List GoStmt) : Nat :=
  (stmts.map (contribOf contrib)).sum

/-- The walker only ever produces plain statements (never the prelude or
return forms reserved to the synthesizer). -/
theorem sizeStmt_plain (ctx : SGCtx) :
    ∀ (fuel : Nat) (known : Known) (fn : GoExpr) (field : GoType) (alloc : Bool)
      (s : GoStmt), (sizeStmtForType ctx fuel known fn field alloc).1 = some s →
      isPlain s = true := by
  intro fuel
  induction fuel with
  | zero =>
    intro known fn field alloc s h
    exact absurd h (by simp [sizeStmtForType])
  | succ fuel ih =>
    intro known fn field alloc s h
    cases field with
    | slice elemT =>
      simp only [sizeStmtForType] at h
      by_cases h0 : ctx.sz (.slice elemT) = 0
      · rw [if_pos h0] at h; cases h
      · rw [if_neg h0] at h
        rcases hsz : ctx.sz elemT with _ | m
        · rw [hsz] at h; cases h
        · rcases m with _ | m2
          · rw [hsz] at h; cases h; rfl
          · rw [hsz] at h; cases h; rfl
    | map keyT valT =>
      simp only [sizeStmtForType] at h
      by_cases h0 : ctx.sz (.map keyT valT) = 0
      · rw [if_pos h0] at h; cases h
      · rw [if_neg h0] at h; cases h; rfl
    | ptr elemT =>
      simp only [sizeStmtForType] at h
      by_cases h0 : ctx.sz (.ptr elemT) = 0
      · rw [if_pos h0] at h; cases h
      · rw [if_neg h0] at h
        exact ih known fn elemT true s h
    | named id =>
      simp only [sizeStmtForType] at h
      by_cases h0 : ctx.sz (.named id) = 0
      · rw [if_pos h0] at h; cases h
      · rw [if_neg h0] at h
        by_cases hpod :
            ((getKnownType ctx known id).1.pod || !(getKnownType ctx known id).1.isLocal) = true
        · rw [if_pos hpod] at h
          by_cases halloc : alloc = true
          · rw [if_pos halloc] at h; cases h; rfl
          · rw [if_neg halloc] at h; cases h
        · rw [if_neg hpod] at h
          exact ih _ fn (underlyingOf ctx id) alloc s h
    | iface empty ifid =>
      simp only [sizeStmtForType] at h
      by_cases h0 : ctx.sz (.iface empty ifid) = 0
      · rw [if_pos h0] at h; cases h
      · rw [if_neg h0] at h
        by_cases he : empty = true
        · rw [if_pos he] at h; cases h
        · rw [if_neg he] at h; cases h; rfl
    | struct fs =>
      simp only [sizeStmtForType] at h
      by_cases h0 : ctx.sz (.struct fs) = 0
      · rw [if_pos h0] at h; cases h
      · rw [if_neg h0] at h; cases h; rfl
    | basic kind =>
      simp only [sizeStmtForType] at h
      by_cases h0 : ctx.sz (.basic kind) = 0
      · rw [if_pos h0] at h; cases h
      · rw [if_neg h0] at h
        cases alloc with
        | true => simp only [Bool.not_true, if_neg] at h; cases h; rfl
        | false =>
          simp only [Bool.not_false] at h
          by_cases hk : kind = .kString
          · rw [if_pos trivial, if_pos hk] at h; cases h; rfl
          · rw [if_pos trivial, if_neg hk] at h; cases h
    | other =>
      simp only [sizeStmtForType] at h
      by_cases h0 : ctx.sz .other = 0
      · rw [if_pos h0] at h; cases h
      · rw [if_neg h0] at h; cases h

/-- The field loop only emits plain statements. -/
theorem structFieldStmts_plain (ctx : SGCtx) (fuel : Nat) :
    (fields : GoFields) → ∀ (known : Known) (s : GoStmt),
      s ∈ (structFieldStmts ctx fuel known fields).1 → isPlain s = true
  | .nil => by intro known s hs; simp [structFieldStmts] at hs
  | .cons fname ftype rest => by
    intro known s hs
    simp only [structFieldStmts, List.mem_append] at hs
    rcases hs with hs | hs
    · cases hw : (sizeStmtForType ctx fuel known (.dot (.id ("cached")) fname) ftype false).1 with
      | none => rw [hw] at hs; simp at hs
      | some w =>
        rw [hw] at hs
        simp only [List.mem_append] at hs
        rcases hs with hs | hs
        · by_cases hd : ctx.debugTypes = true
          · rw [if_pos hd] at hs
            simp at hs
            subst hs; rfl
          · rw [if_neg hd] at hs; simp at hs
        · simp at hs
          subst hs
          exact sizeStmt_plain ctx fuel known _ ftype false _ hw
    · exact structFieldStmts_plain ctx fuel rest _ s hs

/-- Evaluating plain statements followed by `return size` accumulates the
oracle contributions of each statement onto the accumulator. -/
theorem evalStmts_plain_append (contrib : GoStmt → Nat) (alloc : Bool) :
    ∀ (stmts : List GoStmt) (acc : Nat),
      (∀ s ∈ stmts, isPlain s = true) →
      evalStmts contrib false alloc (stmts ++ [.returnSize]) acc =
        acc + sumContrib contrib stmts := by
  intro stmts
  induction stmts with
  | nil => intro acc _; simp [evalStmts, sumContrib]
  | cons s rest ih =>
    intro acc hplain
    have hs : isPlain s = true := hplain s (by simp)
    have hrest : ∀ x ∈ rest, isPlain x = true := fun x hx => hplain x (by simp [hx])
    cases s
    all_goals simp only [isPlain] at hs
    all_goals try (exact Bool.noConfusion hs)
    all_goals (simp [evalStmts, sumContrib, contribOf, ih _ hrest]; try omega)

/-- One full body evaluation in the non-nil case: the prelude charges
`alloc ? n : 0`, then the plain statements accumulate. -/
theorem evalStmts_body (contrib : GoStmt → Nat) (alloc : Bool) (n : Nat)
    (stmts : List GoStmt) (h : ∀ s ∈ stmts, isPlain s = true) :
    evalStmts contrib false alloc
        ([.ifNilReturnZero, .declSizeZero, .ifAllocAdd n] ++ stmts ++ [.returnSize]) 0 =
      (if alloc then n else 0) + sumContrib contrib stmts := by
  have h1 : evalStmts contrib false alloc
      ([.ifNilReturnZero, .declSizeZero, .ifAllocAdd n] ++ stmts ++ [.returnSize]) 0 =
      evalStmts contrib false alloc (stmts ++ [.returnSize])
        (if alloc then 0 + n else 0) := rfl
  rw [h1, evalStmts_plain_append contrib alloc stmts _ h]
  cases alloc <;> simp

/-- C5: the synthesized `CachedSize` method for a struct of static
size > 0 exists, returns 0 on a nil receiver, and otherwise computes
`(alloc ? sizeof(struct) : 0)` plus the contributions of exactly the
walker's per-field statements (declaration order, `alloc = false`),
for any contribution oracle. -/
theorem cachedSize_method_shape (ctx : SGCtx) (fuel : Nat) (known : Known)
    (shortName : String) (fields : GoFields) (alloc : Bool)
    (contrib : GoStmt → Nat) (h : 0 < ctx.sz (.struct fields)) :
    ((sizeImplForStruct ctx fuel known shortName fields).1 ≠ none) ∧
      evalStmts contrib true alloc
          (bodyOf (sizeImplForStruct ctx fuel known shortName fields).1) 0 = 0 ∧
      evalStmts contrib false alloc
          (bodyOf (sizeImplForStruct ctx fuel known shortName fields).1) 0 =
        (if alloc then ctx.sz (.struct fields) else 0) +
          sumContrib contrib (structFieldStmts ctx fuel known fields).1 := by
  have hne : ¬ ctx.sz (.struct fields) = 0 := Nat.pos_iff_ne_zero.mp h
  refine ⟨?_, ?_, ?_⟩
  · simp [sizeImplForStruct, if_neg hne]
  · simp only [sizeImplForStruct, if_neg hne, bodyOf]
    rfl
  · simp only [sizeImplForStruct, if_neg hne, bodyOf]
    exact evalStmts_body contrib alloc _ _
      (fun s hs => structFieldStmts_plain ctx fuel fields known s hs)

/-- A one-field struct (a string field) used to instantiate C5. -/
def fieldsC5 : GoFields := .cons ("s") (.basic .kString) .nil

/-- Witness for C5 at a concrete struct, oracle, and `alloc = true`. -/
theorem cachedSize_method_shape_witness :
    (0 < (baseCtx []).sz (.struct fieldsC5)) ∧
      (((sizeImplForStruct (baseCtx []) 1 [] ("S") fieldsC5).1 ≠ none) ∧
        evalStmts (fun _ => 3) true true
            (bodyOf (sizeImplForStruct (baseCtx []) 1 [] ("S") fieldsC5).1) 0 = 0 ∧
        evalStmts (fun _ => 3) false true
            (bodyOf (sizeImplForStruct (baseCtx []) 1 [] ("S") fieldsC5).1) 0 =
          (if true then (baseCtx []).sz (.struct fieldsC5) else 0) +
            sumContrib (fun _ => 3)
              (structFieldStmts (baseCtx []) 1 [] fieldsC5).1) :=
  ⟨by decide,
    cachedSize_method_shape (baseCtx []) 1 [] ("S") fieldsC5 true (fun _ => 3)
      (by decide)⟩

/-! ### The code collection -/

/-- `codeImpl` from sizegen.go: one synthesized method, tagged with the
fully qualified name of its target type (`named.String()`) and its flags. -/
structure CodeImpl where
  name : String
  flags : CodeFlag
  code : MethodImpl

/-- `codeFile` from sizegen.go: the implementations destined for one
declaring package (`pkg` is the package short name). -/
structure CodeFile where
  pkg : String
  impls : List CodeImpl

/-! ### C3: the writer stops on a close error -/

/-- Behavior of the sink `forFile` returns for one path: whether opening
fails, whether `Render` into it fails, whether `Close` fails. -/
structure SinkSpec where
  openErr : Bool
  renderErr : Bool
  closeErr : Bool

/-- `strings.TrimPrefix`. -/
def trimPfx (s pre : String) : String :=
  if listIsPfx pre.data s.data then ⟨s.data.drop pre.data.length⟩ else s

/-- The output path of one package's file:
`path.Join(mod.Dir, TrimPrefix(pkg, mod.Path), "cached_size.go")`
(the join modelled as concatenation; the trimmed package path keeps its
leading slash). -/
def fullPathFor (modPath modDir pkg : String) : String :=
  modDir ++ trimPfx pkg modPath ++ ("/cached_size.go")

/-- The group loop of `writeGeneratedCode`: skip empty groups, skip (with
a log) groups of foreign packages, and for each remaining group open the
sink, render, and close — returning the first error outright (open error,
render error, or close error) and otherwise accumulating the written
package.  The order of the list stands for one iteration order of the Go
map. -/
def writeLoop (modPath modDir : String) (wr : String → SinkSpec) :
    List (String × CodeFile) → List String → Except String (List String)
  | [], acc => .ok acc.reverse
  | (pkg, file) :: rest, acc =>
    if file.impls.length = 0 then writeLoop modPath modDir wr rest acc
    else if !(hasPfx pkg modPath) then writeLoop modPath modDir wr rest acc
    else
      let fp := fullPathFor modPath modDir pkg
      if (wr fp).openErr then .error (("open failed: ") ++ fp)
      else if (wr fp).renderErr then .error (("failed to save ") ++ fp)
      else if (wr fp).closeErr then .error (("close failed: ") ++ fp)
      else writeLoop modPath modDir wr rest (pkg :: acc)

/-- `writeGeneratedCode` from sizegen.go, reduced to its control flow over
the groups: which groups are written, and which error (if any) ends the
run. -/
def writeGeneratedCode (modPath modDir : String)
    (files : List (String × CodeFile)) (wr : String → SinkSpec) :
    Except String (List String) :=
  writeLoop modPath modDir wr files []

/-- A nonempty group for package `m/a`. -/
def fileA : CodeFile := ⟨("a"), [⟨("m/a.T"), flagNone, ⟨("T"), []⟩⟩]⟩

/-- A nonempty group for package `m/b`. -/
def fileB : CodeFile := ⟨("b"), [⟨("m/b.U"), flagNone, ⟨("U"), []⟩⟩]⟩

/-- C3 counterexample: with two nonempty local groups and sinks whose
`Close` always fails, the run ends with the close error of the FIRST
group — the second group is never attempted (were close errors merely
reported, the result would be the successful-writes list with both groups
attempted). -/
theorem writeGeneratedCode_close_counterexample :
    writeGeneratedCode ("m") ("/d") [(("m/a"), fileA), (("m/b"), fileB)]
        (fun _ => ⟨false, false, true⟩) =
      .error (("close failed: ") ++ ("/d/a/cached_size.go")) := by
  rfl

/-- C3 (amended): when closing the sink of a group fails (after a
successful open and render), `writeGeneratedCode` returns that error at
once; the remaining groups — arbitrary here — are not attempted, and no
record of them appears in the result. -/
theorem writeGeneratedCode_close_error_stops (modPath modDir pkg : String)
    (file : CodeFile) (rest : List (String × CodeFile)) (wr : String → SinkSpec)
    (hne : file.impls.length ≠ 0) (hloc : hasPfx pkg modPath = true)
    (hopen : (wr (fullPathFor modPath modDir pkg)).openErr = false)
    (hrender : (wr (fullPathFor modPath modDir pkg)).renderErr = false)
    (hclose : (wr (fullPathFor modPath modDir pkg)).closeErr = true) :
    writeGeneratedCode modPath modDir ((pkg, file) :: rest) wr =
      .error (("close failed: ") ++ fullPathFor modPath modDir pkg) := by
  unfold writeGeneratedCode writeLoop
  rw [if_neg hne, hloc]
  simp only [Bool.not_true, Bool.false_eq_true, if_false, hopen, hrender, hclose, if_true]

/-- Witness for C3 (amended) at a concrete group and sink. -/
theorem writeGeneratedCode_close_error_stops_witness :
    (fileA.impls.length ≠ 0) ∧ (hasPfx ("m/a") ("m") = true) ∧
      writeGeneratedCode ("m") ("/d") [(("m/a"), fileA)]
          (fun _ => ⟨false, false, true⟩) =
        .error (("close failed: ") ++ fullPathFor ("m") ("/d") ("m/a")) :=
  ⟨by decide, by decide,
    writeGeneratedCode_close_error_stops ("m") ("/d") ("m/a") fileA []
      (fun _ => ⟨false, false, true⟩) (by decide) (by decide) rfl rfl rfl⟩

/-! ### C9: per-file output is sorted and order-independent -/

/-- Insertion step of sorting implementations by ascending fully
qualified name — the comparator of the `sort.Slice` call in
`writeGeneratedCode` (`strings.Compare(name_i, name_j) < 0`). -/
def insertByName (x : CodeImpl) : List CodeImpl → List CodeImpl
  | [] => [x]
  | y :: ys => if x.name < y.name then x :: y :: ys else y :: insertByName x ys

/-- Sort the implementations of one file by ascending name. -/
def sortImpls : List CodeImpl → List CodeImpl
  | [] => []
  | x :: xs => insertByName x (sortImpls xs)

/-- The elements of one rendered output file, in emission order. -/
inductive RenderItem where
  | headerBanner
  | cachedObjectDecl
  | noCheckPtrComment
  | implCode (impl : CodeImpl)

/-- The per-file emission sequence of `writeGeneratedCode`: the header
banner, the shared `cachedObject` interface exactly once iff any
implementation carries the interface flag, then the sorted
implementations, each preceded by the pointer-check opt-out comment when
flagged.  The file's bytes are a function of this sequence (the code
printer is deterministic and out of scope). -/
def renderFile (file : CodeFile) : List RenderItem :=
  let sorted := sortImpls file.impls
  [RenderItem.headerBanner] ++
    (if sorted.any (fun i => i.flags.withInterface) then [RenderItem.cachedObjectDecl]
     else []) ++
    (sorted.map (fun i =>
      (if i.flags.withProbe then [RenderItem.noCheckPtrComment] else []) ++
        [RenderItem.implCode i])).flatten

theorem insertByName_perm (x : CodeImpl) (l : List CodeImpl) :
    (insertByName x l).Perm (x :: l) := by
  induction l with
  | nil => exact List.Perm.refl _
  | cons y ys ih =>
    by_cases h : x.name < y.name
    · simp [insertByName, h]
    · simp only [insertByName, if_neg h]
      exact (List.Perm.cons y ih).trans (List.Perm.swap x y ys)

theorem sortImpls_perm (l : List CodeImpl) : (sortImpls l).Perm l := by
  induction l with
  | nil => exact List.Perm.refl _
  | cons x xs ih =>
    exact (insertByName_perm x (sortImpls xs)).trans (List.Perm.cons x ih)

theorem insertByName_pairwise (x : CodeImpl) (l : List CodeImpl)
    (h : l.Pairwise (fun a b => a.name ≤ b.name)) :
    (insertByName x l).Pairwise (fun a b => a.name ≤ b.name) := by
  induction l with
  | nil => simp [insertByName]
  | cons y ys ih =>
    rw [List.pairwise_cons] at h
    by_cases hlt : x.name < y.name
    · rw [insertByName, if_pos hlt, List.pairwise_cons]
      refine ⟨?_, List.pairwise_cons.mpr h⟩
      intro z hz
      rcases List.mem_cons.mp hz with hz | hz
      · exact hz ▸ le_of_lt hlt
      · exact le_trans (le_of_lt hlt) (h.1 z hz)
    · rw [insertByName, if_neg hlt, List.pairwise_cons]
      refine ⟨?_, ih h.2⟩
      intro z hz
      have hz' : z ∈ x :: ys := (insertByName_perm x ys).mem_iff.mp hz
      rcases List.mem_cons.mp hz' with hz' | hz'
      · rw [hz']; exact le_of_not_lt hlt
      · exact h.1 z hz'

theorem sortImpls_pairwise (l : List CodeImpl) :
    (sortImpls l).Pairwise (fun a b => a.name ≤ b.name) := by
  induction l with
  | nil => simp [sortImpls]
  | cons x xs ih => exact insertByName_pairwise x (sortImpls xs) ih

/-- Two permuted implementation lists with pairwise-distinct names sort to
the same list. -/
theorem sortImpls_eq_of_perm (l1 l2 : List CodeImpl) (hperm : l1.Perm l2)
    (hnd : (l1.map (fun i => i.name)).Nodup) : sortImpls l1 = sortImpls l2 := by
  have hp : (sortImpls l1).Perm (sortImpls l2) :=
    (sortImpls_perm l1).trans (hperm.trans (sortImpls_perm l2).symm)
  have hnd1 : ((sortImpls l1).map (fun i => i.name)).Nodup :=
    (((sortImpls_perm l1).map (fun i => i.name)).nodup_iff).mpr hnd
  have hnd2 : ((sortImpls l2).map (fun i => i.name)).Nodup :=
    ((hp.map (fun i => i.name)).nodup_iff).mp hnd1
  have hstrict : ∀ (l : List CodeImpl), ((l.map (fun i => i.name)).Nodup) →
      l.Pairwise (fun a b => a.name ≤ b.name) →
      l.Pairwise (fun a b => a.name < b.name) := by
    intro l hl hle
    have hne : l.Pairwise (fun a b => a.name ≠ b.name) := List.pairwise_map.mp hl
    exact (hle.and hne).imp (fun h => lt_of_le_of_ne h.1 h.2)
  have : IsAntisymm CodeImpl (fun a b => a.name < b.name) :=
    ⟨fun a b h1 h2 => absurd h2 (lt_asymm h1)⟩
  exact List.eq_of_perm_of_sorted hp
    (hstrict _ hnd1 (sortImpls_pairwise l1)) (hstrict _ hnd2 (sortImpls_pairwise l2))

/-- C9: for one output file, the emission sequence is invariant under the
order in which the implementations were collected (so two runs over the
same inputs emit byte-identical files), and the implementations appear
sorted ascending by the fully qualified name of their target type. -/
theorem renderFile_deterministic_sorted (pkg : String) (l1 l2 : List CodeImpl)
    (hperm : l1.Perm l2) (hnd : (l1.map (fun i => i.name)).Nodup) :
    renderFile ⟨pkg, l1⟩ = renderFile ⟨pkg, l2⟩ ∧
      (sortImpls l1).Pairwise (fun a b => a.name ≤ b.name) := by
  constructor
  · unfold renderFile
    rw [sortImpls_eq_of_perm l1 l2 hperm hnd]
  · exact sortImpls_pairwise l1

/-- Two implementations with distinct names, in both orders. -/
def implX : CodeImpl := ⟨("m/a.T"), flagNone, ⟨("T"), []⟩⟩

/-- Second of the two implementations used to instantiate C9. -/
def implY : CodeImpl := ⟨("m/a.U"), ⟨true, false⟩, ⟨("U"), []⟩⟩

/-- Witness for C9: the two collection orders `[Y, X]` and `[X, Y]` render
identically and sorted. -/
theorem renderFile_deterministic_sorted_witness :
    ([implY, implX].Perm [implX, implY]) ∧
      (([implY, implX].map (fun i => i.name)).Nodup) ∧
      (renderFile ⟨("a"), [implY, implX]⟩ = renderFile ⟨("a"), [implX, implY]⟩ ∧
        (sortImpls [implY, implX]).Pairwise (fun a b => a.name ≤ b.name)) :=
  ⟨List.Perm.swap implX implY [], by decide,
    renderFile_deterministic_sorted ("a") [implY, implX] [implX, implY]
      (List.Perm.swap implX implY []) (by decide)⟩

/-- Witness for C6 (amended): a slice of strings (`sizeof = 16 ≠ 0, ≠ 1`);
the element walk produces the `len` statement, so the loop is present. -/
theorem sliceStmt_shape_witness :
    ((baseCtx []).sz (.slice (.basic .kString)) ≠ 0) ∧
      ((baseCtx []).sz (.basic .kString) ≠ 0) ∧
      ((sizeStmtForType (baseCtx []) 2 [] (.id ("f"))
          (.slice (.basic .kString)) false).1.isSome = true) ∧
      sliceCharge 5
          (stmtOf (sizeStmtForType (baseCtx []) 2 [] (.id ("f"))
            (.slice (.basic .kString)) false).1) = 5 * 16 ∧
      hasDirectLoop
          (stmtOf (sizeStmtForType (baseCtx []) 2 [] (.id ("f"))
            (.slice (.basic .kString)) false).1) =
        (if (baseCtx []).sz (.basic .kString) = 1 then false
         else (sizeStmtForType (baseCtx []) 1 [] (.id ("elem"))
            (.basic .kString) false).1.isSome) := by
  have h := sliceStmt_shape (baseCtx []) 1 [] (.id ("f")) (.basic .kString) false
    (by decide) (by decide) 5
  exact ⟨by decide, by decide, h.1, by simpa using h.2.1, h.2.2⟩

/-! ### The generator state and the fixpoint driver -/

/-- The mutable state of one generator run (Go: `sizegen.known` and
`sizegen.codegen`). -/
structure SGState where
  known : Known
  codegen : List (String × CodeFile)

/-- The named-type ids declared in package `pkgPath` — the top-level
scope `findImplementations` iterates (`Scope.Names` is deterministic; the
model iterates in environment order, and no claim below depends on the
order). -/
def scopeIds (ctx : SGCtx) (pkgPath : String) : List Nat :=
  (List.range ctx.env.length).filter (fun i => (envInfo ctx i).pkgPath == pkgPath)

/-- The `_, isStruct := tt.Underlying().(*types.Struct)` check of the
interface callback in `generateType`. -/
def isStructU (ctx : SGCtx) (id : Nat) : Bool :=
  match underlyingOf ctx id with
  | .struct _ => true
  | _ => false

/-- Assoc-list lookup in the code collection. -/
def findCF : List (String × CodeFile) → String → Option CodeFile
  | [], _ => none
  | p :: rest, key => if p.1 = key then some p.2 else findCF rest key

/-- `file.impls = append(file.impls, impl)` on the file registered under
`key` (the Go code appends through a pointer into the collection). -/
def appendImpl (cg : List (String × CodeFile)) (key : String) (impl : CodeImpl) :
    List (String × CodeFile) :=
  cg.map (fun p => if p.1 = key then (p.1, ⟨p.2.pkg, p.2.impls ++ [impl]⟩) else p)

/-- `generateType` from sizegen.go: return at once when the registry entry
is already marked generated; otherwise mark it generated, then for a
struct underlying synthesize the method and append it (under the type's
fully qualified name), for an interface underlying recursively generate
every struct-underlying implementation found in the package scope, and
do nothing for any other underlying.  Fuel bounds the recursion through
the environment (absent from the Go code, whose termination for the
interface branch is the generated-flag argument proved below). -/
def generateType (ctx : SGCtx) : Nat → String → String → Nat → SGState → SGState
  | 0, _, _, _, st => st
  | fuel + 1, pkgPath, fileKey, id, st =>
    let g := getKnownType ctx st.known id
    if g.1.generated then { st with known := g.2 }
    else
      let st1 : SGState := { st with known := setGenerated g.2 id }
      match underlyingOf ctx id with
      | .struct fields =>
        let r := sizeImplForStruct ctx fuel st1.known (envInfo ctx id).name fields
        let st2 : SGState := { st1 with known := r.2.2 }
        match r.1 with
        | some impl =>
          { st2 with
            codegen := appendImpl st2.codegen fileKey ⟨qnameOf ctx id, r.2.1, impl⟩ }
        | none => st2
      | .iface _ ifid =>
        (scopeIds ctx pkgPath).foldl
          (fun st' i =>
            if (ctx.implementsVal i ifid || ctx.implementsPtr i ifid) && isStructU ctx i
            then generateType ctx fuel pkgPath fileKey i st'
            else st')
          st1
      | _ => st1

/-- The file-creation step of `generateKnownType`: look up the code file
of the type's declaring package, creating an empty one (keyed by package
path, carrying the package short name) when absent. -/
def ensureFile (ctx : SGCtx) (st : SGState) (id : Nat) : SGState :=
  match findCF st.codegen (envInfo ctx id).pkgPath with
  | some _ => st
  | none =>
    { st with
      codegen :=
        st.codegen ++ [((envInfo ctx id).pkgPath, ⟨(envInfo ctx id).pkgName, []⟩)] }

/-- `generateKnownType` from sizegen.go: resolve the declaring package,
create its code file on first need, and generate into it. -/
def generateKnownType (ctx : SGCtx) (fuel : Nat) (st : SGState) (id : Nat) : SGState :=
  generateType ctx fuel (envInfo ctx id).pkgPath (envInfo ctx id).pkgPath id
    (ensureFile ctx st id)

theorem ensureFile_known (ctx : SGCtx) (st : SGState) (id : Nat) :
    (ensureFile ctx st id).known = st.known := by
  unfold ensureFile
  split <;> rfl

/-- One pass over a snapshot of the registry keys: invoke the generator on
every entry currently local, non-POD and not yet generated; the Bool is
the `complete` flag, set to false on any invocation. -/
def passEntries (ctx : SGCtx) (fuel : Nat) :
    List Nat → SGState × Bool → SGState × Bool
  | [], acc => acc
  | id :: rest, (st, complete) =>
    match findTS st.known id with
    | some ts =>
      if ts.isLocal && !ts.pod && !ts.generated
      then passEntries ctx fuel rest (generateKnownType ctx fuel st id, false)
      else passEntries ctx fuel rest (st, complete)
    | none => passEntries ctx fuel rest (st, complete)

/-- One pass of `generateRemainingKnownTypes` over the registry (the key
snapshot models one iteration order of the Go `range` over the map). -/
def passKnown (ctx : SGCtx) (fuel : Nat) (st : SGState) : SGState × Bool :=
  passEntries ctx fuel (st.known.map (fun p => p.1)) (st, true)

/-- The fixpoint loop of `generateRemainingKnownTypes`, with an explicit
pass budget (the Go loop has none; C7 is exactly the statement that a
budget of one more than the number of locally owned non-POD types
suffices to reach quiescence). -/
def genRemaining (ctx : SGCtx) (fuel : Nat) : Nat → SGState → SGState
  | 0, st => st
  | passes + 1, st =>
    let r := passKnown ctx fuel st
    if r.2 then r.1 else genRemaining ctx fuel passes r.1

/-! ### Invariants of a run: registry well-formedness, monotonicity of the
generated flags, and the remaining-work measure -/

/-- All registry entries were computed by `getKnownType` over this
environment: keys are distinct indices into the environment, and the
stored `local` and `pod` flags are the computed ones. -/
def knownWF (ctx : SGCtx) (k : Known) : Prop :=
  (k.map (fun p => p.1)).Nodup ∧
    ∀ p ∈ k, p.1 < ctx.env.length ∧
      p.2.isLocal = localOf ctx p.1 ∧ p.2.pod = podOf ctx p.1

/-- Every named reference inside any environment entry's underlying form
resolves in the environment (true of any loaded Go program). -/
def envClosed (ctx : SGCtx) : Prop :=
  ∀ i, i < ctx.env.length → idsBelow ctx.env.length (underlyingOf ctx i) = true

/-- Generated flags only ever grow. -/
def KnownLE (k1 k2 : Known) : Prop :=
  ∀ id, generatedIn k1 id = true → generatedIn k2 id = true

theorem KnownLE.refl (k : Known) : KnownLE k k := fun _ h => h

theorem KnownLE.trans {k1 k2 k3 : Known} (h1 : KnownLE k1 k2) (h2 : KnownLE k2 k3) :
    KnownLE k1 k3 := fun id h => h2 id (h1 id h)

/-- The number of locally owned, non-POD named types whose registry entry
is not (yet) marked generated. -/
def measureSt (ctx : SGCtx) (k : Known) : Nat :=
  (List.range ctx.env.length).countP
    (fun id => localOf ctx id && !podOf ctx id && !generatedIn k id)

/-- The number of locally owned non-POD named types in the program — the
`N` of the termination claim. -/
def numLocalNonPod (ctx : SGCtx) : Nat :=
  (List.range ctx.env.length).countP (fun id => localOf ctx id && !podOf ctx id)

theorem countP_le_countP (l : List Nat) (p q : Nat → Bool)
    (himp : ∀ a ∈ l, q a = true → p a = true) : l.countP q ≤ l.countP p := by
  induction l with
  | nil => simp
  | cons x xs ih =>
    rw [List.countP_cons, List.countP_cons]
    have hxs : xs.countP q ≤ xs.countP p :=
      ih (fun a ha => himp a (List.mem_cons_of_mem x ha))
    by_cases hq : q x = true
    · rw [if_pos hq, if_pos (himp x (List.mem_cons_self x xs) hq)]
      omega
    · rw [if_neg hq]
      omega

theorem countP_lt_countP (l : List Nat) (p q : Nat → Bool)
    (himp : ∀ a ∈ l, q a = true → p a = true)
    (a : Nat) (ha : a ∈ l) (hpa : p a = true) (hqa : q a = false) :
    l.countP q < l.countP p := by
  induction l with
  | nil => cases ha
  | cons x xs ih =>
    rw [List.countP_cons, List.countP_cons]
    have hxs : xs.countP q ≤ xs.countP p :=
      countP_le_countP xs p q (fun b hb => himp b (List.mem_cons_of_mem x hb))
    rcases List.mem_cons.mp ha with rfl | ha'
    · rw [hqa, hpa]
      simp only [Bool.false_eq_true, if_false, if_true]
      omega
    · have hlt : xs.countP q < xs.countP p :=
        ih (fun b hb => himp b (List.mem_cons_of_mem x hb)) ha'
      by_cases hq : q x = true
      · rw [if_pos hq, if_pos (himp x (List.mem_cons_self x xs) hq)]
        omega
      · rw [if_neg hq]
        omega

theorem measureSt_mono (ctx : SGCtx) (k k' : Known) (h : KnownLE k k') :
    measureSt ctx k' ≤ measureSt ctx k := by
  refine countP_le_countP _ _ _ (fun a _ hq => ?_)
  simp only [Bool.and_eq_true, Bool.not_eq_true'] at hq ⊢
  refine ⟨hq.1, ?_⟩
  cases hgen : generatedIn k a with
  | false => rfl
  | true => exact absurd (h a hgen) (by rw [hq.2]; exact Bool.false_ne_true)

theorem measureSt_lt (ctx : SGCtx) (k k' : Known) (h : KnownLE k k')
    (id : Nat) (hid : id < ctx.env.length) (hl : localOf ctx id = true)
    (hp : podOf ctx id = false) (h0 : generatedIn k id = false)
    (h1 : generatedIn k' id = true) :
    measureSt ctx k' < measureSt ctx k := by
  refine countP_lt_countP _ _ _ (fun a _ hq => ?_) id (List.mem_range.mpr hid) ?_ ?_
  · simp only [Bool.and_eq_true, Bool.not_eq_true'] at hq ⊢
    refine ⟨hq.1, ?_⟩
    cases hgen : generatedIn k a with
    | false => rfl
    | true => exact absurd (h a hgen) (by rw [hq.2]; exact Bool.false_ne_true)
  · simp [hl, hp, h0]
  · simp [h1]

theorem measureSt_le_numLocalNonPod (ctx : SGCtx) (k : Known) :
    measureSt ctx k ≤ numLocalNonPod ctx := by
  refine countP_le_countP _ _ _ (fun a _ hq => ?_)
  simp only [Bool.and_eq_true] at hq ⊢
  exact hq.1

theorem findTS_some_mem (k : Known) (id : Nat) (ts : TypeState)
    (h : findTS k id = some ts) : (id, ts) ∈ k := by
  induction k with
  | nil => cases h
  | cons p rest ih =>
    rw [findTS] at h
    by_cases hp : p.1 = id
    · rw [if_pos hp] at h
      cases h
      have hpe : (id, p.2) = p := by rw [← hp]
      rw [hpe]
      exact List.mem_cons_self p rest
    · rw [if_neg hp] at h
      exact List.mem_cons_of_mem p (ih h)

theorem findTS_none_not_mem (k : Known) (id : Nat) (h : findTS k id = none) :
    ∀ p ∈ k, p.1 ≠ id := by
  induction k with
  | nil => intro p hp; cases hp
  | cons q rest ih =>
    rw [findTS] at h
    by_cases hq : q.1 = id
    · rw [if_pos hq] at h; cases h
    · rw [if_neg hq] at h
      intro p hp
      rcases List.mem_cons.mp hp with rfl | hp'
      · exact hq
      · exact ih h p hp'

theorem knownWF_getKnownType (ctx : SGCtx) (k : Known) (id : Nat)
    (hid : id < ctx.env.length) (h : knownWF ctx k) :
    knownWF ctx (getKnownType ctx k id).2 := by
  unfold getKnownType
  cases hf : findTS k id with
  | some ts => exact h
  | none =>
    refine ⟨?_, ?_⟩
    · simp only [List.map_cons, List.nodup_cons]
      refine ⟨?_, h.1⟩
      intro hmem
      rcases List.mem_map.mp hmem with ⟨p, hp, hpe⟩
      exact findTS_none_not_mem k id hf p hp hpe
    · intro p hp
      rcases List.mem_cons.mp hp with rfl | hp'
      · exact ⟨hid, rfl, rfl⟩
      · exact h.2 p hp'

theorem setGenerated_keys (k : Known) (id : Nat) :
    (setGenerated k id).map (fun p => p.1) = k.map (fun p => p.1) := by
  induction k with
  | nil => rfl
  | cons p rest ih =>
    by_cases hp : p.1 = id
    · simp [setGenerated, hp, ih]
    · simp [setGenerated, hp, ih]

theorem knownWF_setGenerated (ctx : SGCtx) (k : Known) (id : Nat)
    (h : knownWF ctx k) : knownWF ctx (setGenerated k id) := by
  refine ⟨by rw [setGenerated_keys]; exact h.1, ?_⟩
  intro p hp
  induction k with
  | nil => cases hp
  | cons q rest ih =>
    rw [setGenerated] at hp
    rcases List.mem_cons.mp hp with rfl | hp'
    · by_cases hq : q.1 = id
      · rw [if_pos hq]
        have hq2 := h.2 q (List.mem_cons_self q rest)
        exact ⟨hq2.1, hq2.2.1, hq2.2.2⟩
      · rw [if_neg hq]
        exact h.2 q (List.mem_cons_self q rest)
    · exact ih ⟨(List.nodup_cons.mp h.1).2,
        fun r hr => h.2 r (List.mem_cons_of_mem q hr)⟩ hp'

theorem KnownLE_getKnownType (ctx : SGCtx) (k : Known) (id : Nat) :
    KnownLE k (getKnownType ctx k id).2 :=
  fun j h => by rw [generatedIn_getKnownType]; exact h

theorem KnownLE_setGenerated (k : Known) (id : Nat) :
    KnownLE k (setGenerated k id) :=
  fun j h => generatedIn_setGenerated_mono k id j h

/-- The walker never flips a generated flag: it only reads and creates
registry entries (fresh ones carry `generated = false`). -/
theorem sizeStmt_gen_eq (ctx : SGCtx) :
    ∀ (fuel : Nat) (known : Known) (fn : GoExpr) (field : GoType) (alloc : Bool)
      (j : Nat),
      generatedIn (sizeStmtForType ctx fuel known fn field alloc).2.2 j =
        generatedIn known j := by
  intro fuel
  induction fuel with
  | zero => intro known fn field alloc j; rfl
  | succ fuel ih =>
    intro known fn field alloc j
    cases field with
    | slice elemT =>
      simp only [sizeStmtForType]
      by_cases h0 : ctx.sz (.slice elemT) = 0
      · rw [if_pos h0]
      · rw [if_neg h0]
        rcases hsz : ctx.sz elemT with _ | m
        · rfl
        · rcases m with _ | m2
          · rfl
          · exact ih known (.id ("elem")) elemT false j
    | map keyT valT =>
      simp only [sizeStmtForType]
      by_cases h0 : ctx.sz (.map keyT valT) = 0
      · rw [if_pos h0]
      · rw [if_neg h0]
        simp only []
        rw [ih _ (.id ("v")) valT false j, ih known (.id ("k")) keyT false j]
    | ptr elemT =>
      simp only [sizeStmtForType]
      by_cases h0 : ctx.sz (.ptr elemT) = 0
      · rw [if_pos h0]
      · rw [if_neg h0]
        exact ih known fn elemT true j
    | named id =>
      simp only [sizeStmtForType]
      by_cases h0 : ctx.sz (.named id) = 0
      · rw [if_pos h0]
      · rw [if_neg h0]
        by_cases hpod :
            ((getKnownType ctx known id).1.pod || !(getKnownType ctx known id).1.isLocal) = true
        · rw [if_pos hpod]
          by_cases halloc : alloc = true
          · rw [if_pos halloc]
            exact generatedIn_getKnownType ctx known id j
          · rw [if_neg halloc]
            exact generatedIn_getKnownType ctx known id j
        · rw [if_neg hpod]
          rw [ih _ fn (underlyingOf ctx id) alloc j]
          exact generatedIn_getKnownType ctx known id j
    | iface empty ifid =>
      simp only [sizeStmtForType]
      by_cases h0 : ctx.sz (.iface empty ifid) = 0
      · rw [if_pos h0]
      · rw [if_neg h0]
        by_cases he : empty = true
        · rw [if_pos he]
        · rw [if_neg he]
    | struct fs =>
      simp only [sizeStmtForType]
      by_cases h0 : ctx.sz (.struct fs) = 0
      · rw [if_pos h0]
      · rw [if_neg h0]
    | basic kind =>
      simp only [sizeStmtForType]
      by_cases h0 : ctx.sz (.basic kind) = 0
      · rw [if_pos h0]
      · rw [if_neg h0]
        cases alloc with
        | true => simp
        | false =>
          by_cases hk : kind = .kString
          · simp [hk]
          · simp [hk]
    | other =>
      simp only [sizeStmtForType]
      by_cases h0 : ctx.sz .other = 0
      · rw [if_pos h0]
      · rw [if_neg h0]

/-- The walker preserves registry well-formedness (its lookups create only
entries of valid ids, with the computed flags). -/
theorem sizeStmt_wf (ctx : SGCtx) (hcl : envClosed ctx) :
    ∀ (fuel : Nat) (known : Known) (fn : GoExpr) (field : GoType) (alloc : Bool),
      knownWF ctx known → idsBelow ctx.env.length field = true →
      knownWF ctx (sizeStmtForType ctx fuel known fn field alloc).2.2 := by
  intro fuel
  induction fuel with
  | zero => intro known fn field alloc hwf _; exact hwf
  | succ fuel ih =>
    intro known fn field alloc hwf hids
    cases field with
    | slice elemT =>
      simp only [sizeStmtForType]
      by_cases h0 : ctx.sz (.slice elemT) = 0
      · rw [if_pos h0]; exact hwf
      · rw [if_neg h0]
        rcases hsz : ctx.sz elemT with _ | m
        · exact hwf
        · rcases m with _ | m2
          · exact hwf
          · exact ih known (.id ("elem")) elemT false hwf hids
    | map keyT valT =>
      simp only [sizeStmtForType]
      by_cases h0 : ctx.sz (.map keyT valT) = 0
      · rw [if_pos h0]; exact hwf
      · rw [if_neg h0]
        simp only [idsBelow, Bool.and_eq_true] at hids
        exact ih _ (.id ("v")) valT false
          (ih known (.id ("k")) keyT false hwf hids.1) hids.2
    | ptr elemT =>
      simp only [sizeStmtForType]
      by_cases h0 : ctx.sz (.ptr elemT) = 0
      · rw [if_pos h0]; exact hwf
      · rw [if_neg h0]
        exact ih known fn elemT true hwf hids
    | named id =>
      simp only [sizeStmtForType]
      have hid : id < ctx.env.length := by
        simpa [idsBelow] using hids
      by_cases h0 : ctx.sz (.named id) = 0
      · rw [if_pos h0]; exact hwf
      · rw [if_neg h0]
        by_cases hpod :
            ((getKnownType ctx known id).1.pod || !(getKnownType ctx known id).1.isLocal) = true
        · rw [if_pos hpod]
          by_cases halloc : alloc = true
          · rw [if_pos halloc]
            exact knownWF_getKnownType ctx known id hid hwf
          · rw [if_neg halloc]
            exact knownWF_getKnownType ctx known id hid hwf
        · rw [if_neg hpod]
          exact ih _ fn (underlyingOf ctx id) alloc
            (knownWF_getKnownType ctx known id hid hwf) (hcl id hid)
    | iface empty ifid =>
      simp only [sizeStmtForType]
      by_cases h0 : ctx.sz (.iface empty ifid) = 0
      · rw [if_pos h0]; exact hwf
      · rw [if_neg h0]
        by_cases he : empty = true
        · rw [if_pos he]; exact hwf
        · rw [if_neg he]; exact hwf
    | struct fs =>
      simp only [sizeStmtForType]
      by_cases h0 : ctx.sz (.struct fs) = 0
      · rw [if_pos h0]; exact hwf
      · rw [if_neg h0]; exact hwf
    | basic kind =>
      simp only [sizeStmtForType]
      by_cases h0 : ctx.sz (.basic kind) = 0
      · rw [if_pos h0]; exact hwf
      · rw [if_neg h0]
        cases alloc with
        | true => simpa
        | false =>
          by_cases hk : kind = .kString
          · simpa [hk]
          · simpa [hk]
    | other =>
      simp only [sizeStmtForType]
      by_cases h0 : ctx.sz .other = 0
      · rw [if_pos h0]; exact hwf
      · rw [if_neg h0]; exact hwf

/-- The field loop never flips a generated flag. -/
theorem structFieldStmts_gen_eq (ctx : SGCtx) (fuel : Nat) :
    (fields : GoFields) → ∀ (known : Known) (j : Nat),
      generatedIn (structFieldStmts ctx fuel known fields).2.2 j =
        generatedIn known j
  | .nil => by intro known j; rfl
  | .cons fname ftype rest => by
    intro known j
    simp only [structFieldStmts]
    rw [structFieldStmts_gen_eq ctx fuel rest _ j,
      sizeStmt_gen_eq ctx fuel known (.dot (.id ("cached")) fname) ftype false j]

/-- The field loop preserves registry well-formedness. -/
theorem structFieldStmts_wf (ctx : SGCtx) (hcl : envClosed ctx) (fuel : Nat) :
    (fields : GoFields) → ∀ (known : Known),
      knownWF ctx known → fieldsIdsBelow ctx.env.length fields = true →
      knownWF ctx (structFieldStmts ctx fuel known fields).2.2
  | .nil => by intro known hwf _; exact hwf
  | .cons fname ftype rest => by
    intro known hwf hids
    simp only [structFieldStmts]
    simp only [fieldsIdsBelow, Bool.and_eq_true] at hids
    exact structFieldStmts_wf ctx hcl fuel rest _
      (sizeStmt_wf ctx hcl fuel known (.dot (.id ("cached")) fname) ftype false hwf hids.1)
      hids.2

/-- `sizeImplForStruct` never flips a generated flag. -/
theorem sizeImplForStruct_gen_eq (ctx : SGCtx) (fuel : Nat) (known : Known)
    (nm : String) (fields : GoFields) (j : Nat) :
    generatedIn (sizeImplForStruct ctx fuel known nm fields).2.2 j =
      generatedIn known j := by
  unfold sizeImplForStruct
  by_cases h0 : ctx.sz (.struct fields) = 0
  · rw [if_pos h0]
  · rw [if_neg h0]
    exact structFieldStmts_gen_eq ctx fuel fields known j

/-- `sizeImplForStruct` preserves registry well-formedness. -/
theorem sizeImplForStruct_wf (ctx : SGCtx) (hcl : envClosed ctx) (fuel : Nat)
    (known : Known) (nm : String) (fields : GoFields)
    (hwf : knownWF ctx known) (hids : fieldsIdsBelow ctx.env.length fields = true) :
    knownWF ctx (sizeImplForStruct ctx fuel known nm fields).2.2 := by
  unfold sizeImplForStruct
  by_cases h0 : ctx.sz (.struct fields) = 0
  · rw [if_pos h0]; exact hwf
  · rw [if_neg h0]
    exact structFieldStmts_wf ctx hcl fuel fields known hwf hids

/-- Elements of a package scope are valid environment indices. -/
theorem scopeIds_lt (ctx : SGCtx) (pkgPath : String) :
    ∀ i ∈ scopeIds ctx pkgPath, i < ctx.env.length := by
  intro i hi
  exact List.mem_range.mp (List.mem_filter.mp hi).1

/-- Through `generateType`: the registry stays well-formed, generated
flags only grow, and — as soon as any fuel is available — the target's
flag is set on return (`generateType` marks before synthesizing). -/
theorem generateType_wf_mono (ctx : SGCtx) (hcl : envClosed ctx) :
    ∀ (fuel : Nat) (pkgPath fileKey : String) (id : Nat) (st : SGState),
      id < ctx.env.length → knownWF ctx st.known →
      knownWF ctx (generateType ctx fuel pkgPath fileKey id st).known ∧
        KnownLE st.known (generateType ctx fuel pkgPath fileKey id st).known ∧
        (fuel ≠ 0 →
          generatedIn (generateType ctx fuel pkgPath fileKey id st).known id = true) := by
  intro fuel
  induction fuel with
  | zero =>
    intro pkgPath fileKey id st hid hwf
    exact ⟨hwf, KnownLE.refl _, fun h => absurd rfl h⟩
  | succ fuel ih =>
    intro pkgPath fileKey id st hid hwf
    have hids := hcl id hid
    have hwf2 : knownWF ctx (setGenerated (getKnownType ctx st.known id).2 id) :=
      knownWF_setGenerated ctx _ id (knownWF_getKnownType ctx st.known id hid hwf)
    have hle1 : KnownLE st.known (setGenerated (getKnownType ctx st.known id).2 id) :=
      (KnownLE_getKnownType ctx st.known id).trans (KnownLE_setGenerated _ id)
    have hgen1 : generatedIn (setGenerated (getKnownType ctx st.known id).2 id) id = true :=
      generatedIn_setGenerated_self _ id _ (findTS_getKnownType_self ctx st.known id)
    simp only [generateType]
    split
    · rename_i hgen
      refine ⟨knownWF_getKnownType ctx st.known id hid hwf,
        KnownLE_getKnownType ctx st.known id, fun _ => ?_⟩
      rw [generatedIn_getKnownType, ← getKnownType_fst_generated]
      exact hgen
    · rename_i hgen
      split
      · -- struct underlying
        rename_i fields heq
        rw [heq] at hids
        simp only [idsBelow] at hids
        have hwfr : knownWF ctx
            (sizeImplForStruct ctx fuel (setGenerated (getKnownType ctx st.known id).2 id)
              (envInfo ctx id).name fields).2.2 :=
          sizeImplForStruct_wf ctx hcl fuel _ _ fields hwf2 hids
        have hgeq : ∀ j, generatedIn
            (sizeImplForStruct ctx fuel (setGenerated (getKnownType ctx st.known id).2 id)
              (envInfo ctx id).name fields).2.2 j =
            generatedIn (setGenerated (getKnownType ctx st.known id).2 id) j :=
          fun j => sizeImplForStruct_gen_eq ctx fuel _ _ fields j
        split
        · exact ⟨hwfr, hle1.trans (fun j hj => by rw [hgeq j]; exact hj),
            fun _ => by rw [hgeq id]; exact hgen1⟩
        · exact ⟨hwfr, hle1.trans (fun j hj => by rw [hgeq j]; exact hj),
            fun _ => by rw [hgeq id]; exact hgen1⟩
      · -- interface underlying
        rename_i empty ifid heq
        have hfold : ∀ (l : List Nat) (st' : SGState),
            (∀ i ∈ l, i < ctx.env.length) → knownWF ctx st'.known →
            knownWF ctx ((l.foldl
                (fun st' i =>
                  if (ctx.implementsVal i ifid || ctx.implementsPtr i ifid) && isStructU ctx i
                  then generateType ctx fuel pkgPath fileKey i st'
                  else st') st').known) ∧
              KnownLE st'.known ((l.foldl
                (fun st' i =>
                  if (ctx.implementsVal i ifid || ctx.implementsPtr i ifid) && isStructU ctx i
                  then generateType ctx fuel pkgPath fileKey i st'
                  else st') st').known) := by
          intro l
          induction l with
          | nil => intro st' _ hwf'; exact ⟨hwf', KnownLE.refl _⟩
          | cons i is ihl =>
            intro st' hlt hwf'
            simp only [List.foldl_cons]
            by_cases hcond :
                ((ctx.implementsVal i ifid || ctx.implementsPtr i ifid) && isStructU ctx i) = true
            · rw [if_pos hcond]
              have hstep := ih pkgPath fileKey i st' (hlt i (List.mem_cons_self i is)) hwf'
              obtain ⟨hw, hl⟩ := ihl (generateType ctx fuel pkgPath fileKey i st')
                (fun a ha => hlt a (List.mem_cons_of_mem i ha)) hstep.1
              exact ⟨hw, hstep.2.1.trans hl⟩
            · rw [if_neg hcond]
              exact ihl st' (fun a ha => hlt a (List.mem_cons_of_mem i ha)) hwf'
        obtain ⟨hw, hl⟩ := hfold (scopeIds ctx pkgPath)
          ⟨setGenerated (getKnownType ctx st.known id).2 id, st.codegen⟩
          (scopeIds_lt ctx pkgPath) hwf2
        exact ⟨hw, hle1.trans hl, fun _ => hl id hgen1⟩
      · -- any other underlying: only the flag was set
        exact ⟨hwf2, hle1, fun _ => hgen1⟩

/-- Same facts through `generateKnownType` (creating the empty code file
does not touch the registry). -/
theorem generateKnownType_wf_mono (ctx : SGCtx) (hcl : envClosed ctx)
    (fuel : Nat) (st : SGState) (id : Nat) (hid : id < ctx.env.length)
    (hwf : knownWF ctx st.known) :
    knownWF ctx (generateKnownType ctx fuel st id).known ∧
      KnownLE st.known (generateKnownType ctx fuel st id).known ∧
      (fuel ≠ 0 → generatedIn (generateKnownType ctx fuel st id).known id = true) := by
  unfold generateKnownType
  have h := generateType_wf_mono ctx hcl fuel (envInfo ctx id).pkgPath
    (envInfo ctx id).pkgPath id (ensureFile ctx st id) hid
    (by rw [ensureFile_known]; exact hwf)
  rw [ensureFile_known] at h
  exact h

/-- Through one pass over a registry snapshot: well-formedness and
monotonicity are preserved; when the pass reports incomplete (and started
complete), the measure strictly decreased; when it reports complete, the
state is unchanged. -/
theorem passEntries_props (ctx : SGCtx) (hcl : envClosed ctx) (fuel : Nat)
    (hf : fuel ≠ 0) :
    ∀ (l : List Nat) (st : SGState) (c : Bool), knownWF ctx st.known →
      knownWF ctx (passEntries ctx fuel l (st, c)).1.known ∧
        KnownLE st.known (passEntries ctx fuel l (st, c)).1.known ∧
        ((passEntries ctx fuel l (st, c)).2 = false →
          c = false ∨
            measureSt ctx (passEntries ctx fuel l (st, c)).1.known <
              measureSt ctx st.known) ∧
        ((passEntries ctx fuel l (st, c)).2 = true →
          (passEntries ctx fuel l (st, c)).1 = st ∧ c = true) := by
  intro l
  induction l with
  | nil =>
    intro st c hwf
    exact ⟨hwf, KnownLE.refl _, fun h => Or.inl h, fun h => ⟨rfl, h⟩⟩
  | cons id rest ih =>
    intro st c hwf
    simp only [passEntries]
    cases hts : findTS st.known id with
    | none => exact ih st c hwf
    | some ts =>
      dsimp only
      by_cases hq : (ts.isLocal && !ts.pod && !ts.generated) = true
      · rw [if_pos hq]
        have hmem := findTS_some_mem st.known id ts hts
        obtain ⟨hid, hloc, hpod⟩ := hwf.2 _ hmem
        simp only [Bool.and_eq_true, Bool.not_eq_true'] at hq
        have hg := generateKnownType_wf_mono ctx hcl fuel st id hid hwf
        have hgen0 : generatedIn st.known id = false := by
          unfold generatedIn
          rw [hts]
          exact hq.2
        have hgen1 : generatedIn (generateKnownType ctx fuel st id).known id = true :=
          hg.2.2 hf
        have hlt : measureSt ctx (generateKnownType ctx fuel st id).known <
            measureSt ctx st.known :=
          measureSt_lt ctx _ _ hg.2.1 id hid (by rw [← hloc]; exact hq.1.1)
            (by rw [← hpod]; exact hq.1.2) hgen0 hgen1
        obtain ⟨hwf', hle', _, hcompl⟩ := ih (generateKnownType ctx fuel st id) false hg.1
        refine ⟨hwf', hg.2.1.trans hle', fun _ => Or.inr ?_, fun htrue => ?_⟩
        · exact lt_of_le_of_lt (measureSt_mono ctx _ _ hle') hlt
        · exact absurd (hcompl htrue).2 (by simp)
      · rw [if_neg hq]
        exact ih st c hwf

/-- The fixpoint loop preserves well-formedness and never unmarks a
generated type. -/
theorem genRemaining_mono (ctx : SGCtx) (hcl : envClosed ctx) (fuel : Nat)
    (hf : fuel ≠ 0) :
    ∀ (budget : Nat) (st : SGState), knownWF ctx st.known →
      knownWF ctx (genRemaining ctx fuel budget st).known ∧
        KnownLE st.known (genRemaining ctx fuel budget st).known := by
  intro budget
  induction budget with
  | zero => intro st hwf; exact ⟨hwf, KnownLE.refl _⟩
  | succ b ih =>
    intro st hwf
    simp only [genRemaining]
    have hp := passEntries_props ctx hcl fuel hf (st.known.map (fun p => p.1)) st true hwf
    by_cases hc : (passKnown ctx fuel st).2 = true
    · rw [if_pos hc]
      exact ⟨hp.1, hp.2.1⟩
    · rw [if_neg hc]
      obtain ⟨hwf', hle'⟩ := ih (passKnown ctx fuel st).1 hp.1
      exact ⟨hwf', hp.2.1.trans hle'⟩

/-- A pass budget of at least the measure reaches quiescence: after
`genRemaining` with that budget, one more pass finds nothing to do. -/
theorem genRemaining_quiescent (ctx : SGCtx) (hcl : envClosed ctx) (fuel : Nat)
    (hf : fuel ≠ 0) :
    ∀ (budget : Nat) (st : SGState), knownWF ctx st.known →
      measureSt ctx st.known ≤ budget →
      (passKnown ctx fuel (genRemaining ctx fuel budget st)).2 = true := by
  intro budget
  induction budget with
  | zero =>
    intro st hwf hm
    simp only [genRemaining]
    by_contra hc
    have hfalse : (passKnown ctx fuel st).2 = false := by
      revert hc
      cases (passKnown ctx fuel st).2 <;> simp
    have hp := passEntries_props ctx hcl fuel hf (st.known.map (fun p => p.1)) st true hwf
    rcases hp.2.2.1 hfalse with h | h
    · exact Bool.noConfusion h
    · omega
  | succ b ih =>
    intro st hwf hm
    simp only [genRemaining]
    have hp := passEntries_props ctx hcl fuel hf (st.known.map (fun p => p.1)) st true hwf
    by_cases hc : (passKnown ctx fuel st).2 = true
    · rw [if_pos hc]
      obtain ⟨heq, _⟩ := hp.2.2.2 hc
      have : (passKnown ctx fuel st).1 = st := heq
      rw [this]
      exact hc
    · rw [if_neg hc]
      have hfalse : (passKnown ctx fuel st).2 = false := by
        revert hc
        cases (passKnown ctx fuel st).2 <;> simp
      rcases hp.2.2.1 hfalse with h | h
      · exact Bool.noConfusion h
      · have h' : measureSt ctx (passKnown ctx fuel st).1.known <
            measureSt ctx st.known := h
        exact ih (passKnown ctx fuel st).1 hp.1 (by omega)

/-- C7: the fixpoint driver terminates.  The pass generates only for
registry entries that are locally owned, non-POD and not yet generated
(definitionally, in `passEntries`); each such invocation irreversibly
flips the entry's generated flag (monotonicity, first conjunct); and with
`N` the number of locally owned non-POD types of the program, a budget of
`N` passes reaches quiescence — the next pass reports complete (second
conjunct). -/
theorem fixpoint_driver_terminates (ctx : SGCtx) (fuel : Nat) (st : SGState)
    (hcl : envClosed ctx) (hwf : knownWF ctx st.known) :
    (∀ id, generatedIn st.known id = true →
        generatedIn (genRemaining ctx (fuel + 1) (numLocalNonPod ctx) st).known id = true) ∧
      (passKnown ctx (fuel + 1)
          (genRemaining ctx (fuel + 1) (numLocalNonPod ctx) st)).2 = true := by
  refine ⟨?_, ?_⟩
  · exact fun id h =>
      (genRemaining_mono ctx hcl (fuel + 1) (Nat.succ_ne_zero fuel)
        (numLocalNonPod ctx) st hwf).2 id h
  · exact genRemaining_quiescent ctx hcl (fuel + 1) (Nat.succ_ne_zero fuel)
      (numLocalNonPod ctx) st hwf (measureSt_le_numLocalNonPod ctx st.known)

/-! ### C8: at most one emission per named type -/

/-- Number of implementations carrying name `nm` in one file. -/
def countName (impls : List CodeImpl) (nm : String) : Nat :=
  impls.countP (fun i => i.name == nm)

/-- Number of implementations carrying name `nm` across the collection. -/
def implCountFor (cg : List (String × CodeFile)) (nm : String) : Nat :=
  (cg.map (fun p => countName p.2.impls nm)).sum

/-- Distinct environment entries have distinct fully qualified names
(true of any loaded Go program: a package declares each type name once). -/
def qnamesInj (ctx : SGCtx) : Prop :=
  ∀ i, i < ctx.env.length → ∀ j, j < ctx.env.length →
    qnameOf ctx i = qnameOf ctx j → i = j

/-- The C8 invariant bundle: well-formed registry, distinct collection
keys, and per named type at most one emitted implementation — none at all
while the type is not marked generated. -/
def emitOK (ctx : SGCtx) (st : SGState) : Prop :=
  knownWF ctx st.known ∧ (st.codegen.map (fun p => p.1)).Nodup ∧
    ∀ id, id < ctx.env.length →
      implCountFor st.codegen (qnameOf ctx id) ≤
        (if generatedIn st.known id = true then 1 else 0)

theorem appendImpl_keys (cg : List (String × CodeFile)) (key : String)
    (impl : CodeImpl) :
    (appendImpl cg key impl).map (fun p => p.1) = cg.map (fun p => p.1) := by
  induction cg with
  | nil => rfl
  | cons p rest ih =>
    by_cases hp : p.1 = key
    · simp [appendImpl, hp] at ih ⊢
      exact ih
    · simp [appendImpl, hp] at ih ⊢
      exact ih

theorem appendImpl_of_absent (cg : List (String × CodeFile)) (key : String)
    (impl : CodeImpl) (h : ∀ p ∈ cg, p.1 ≠ key) : appendImpl cg key impl = cg := by
  induction cg with
  | nil => rfl
  | cons p rest ih =>
    have hp : ¬ p.1 = key := h p (List.mem_cons_self p rest)
    simp only [appendImpl, if_neg hp, List.map_cons] at ih ⊢
    rw [ih (fun q hq => h q (List.mem_cons_of_mem p hq))]

theorem countName_append_one (impls : List CodeImpl) (impl : CodeImpl) (nm : String) :
    countName (impls ++ [impl]) nm =
      countName impls nm + (if impl.name == nm then 1 else 0) := by
  unfold countName
  rw [List.countP_append]
  simp [List.countP_cons]

/-- Appending an implementation whose name is not `nm` leaves the count of
`nm` unchanged. -/
theorem implCountFor_appendImpl_ne (cg : List (String × CodeFile)) (key : String)
    (impl : CodeImpl) (nm : String) (hne : (impl.name == nm) = false) :
    implCountFor (appendImpl cg key impl) nm = implCountFor cg nm := by
  induction cg with
  | nil => rfl
  | cons p rest ih =>
    by_cases hp : p.1 = key
    · simp only [implCountFor, appendImpl, if_pos hp, List.map_cons, List.sum_cons] at ih ⊢
      rw [countName_append_one, hne]
      simp only [Bool.false_eq_true, if_false, Nat.add_zero]
      exact congrArg _ ih
    · simp only [implCountFor, appendImpl, if_neg hp, List.map_cons, List.sum_cons] at ih ⊢
      exact congrArg _ ih

/-- With distinct keys, appending one implementation raises the count of
its own name by at most one. -/
theorem implCountFor_appendImpl_le (cg : List (String × CodeFile)) (key : String)
    (impl : CodeImpl) (nm : String)
    (hnd : (cg.map (fun p => p.1)).Nodup) :
    implCountFor (appendImpl cg key impl) nm ≤ implCountFor cg nm + 1 := by
  induction cg with
  | nil => simp [appendImpl, implCountFor]
  | cons p rest ih =>
    rw [List.map_cons, List.nodup_cons] at hnd
    by_cases hp : p.1 = key
    · have habs : ∀ q ∈ rest, q.1 ≠ key := by
        intro q hq
        intro hqe
        refine hnd.1 ?_
        have hq1 : q.1 = p.1 := by rw [hqe, hp]
        exact hq1 ▸ List.mem_map.mpr ⟨q, hq, rfl⟩
      simp only [implCountFor, appendImpl, if_pos hp, List.map_cons, List.sum_cons]
      have : (rest.map (fun q => if q.1 = key then (q.1, ⟨q.2.pkg, q.2.impls ++ [impl]⟩)
          else q)) = rest := by
        have := appendImpl_of_absent rest key impl habs
        simpa [appendImpl] using this
      rw [this, countName_append_one]
      by_cases hi : (impl.name == nm) = true
      · rw [hi]
        simp only [if_true]
        omega
      · rw [Bool.eq_false_iff.mpr hi]
        simp only [Bool.false_eq_true, if_false]
        omega
    · simp only [implCountFor, appendImpl, if_neg hp, List.map_cons, List.sum_cons]
      have := ih hnd.2
      simp only [implCountFor, appendImpl] at this
      omega

theorem findCF_none_not_mem (cg : List (String × CodeFile)) (key : String)
    (h : findCF cg key = none) : ∀ p ∈ cg, p.1 ≠ key := by
  induction cg with
  | nil => intro p hp; cases hp
  | cons q rest ih =>
    rw [findCF] at h
    by_cases hq : q.1 = key
    · rw [if_pos hq] at h; cases h
    · rw [if_neg hq] at h
      intro p hp
      rcases List.mem_cons.mp hp with rfl | hp'
      · exact hq
      · exact ih h p hp'

theorem implCountFor_append_empty (cg : List (String × CodeFile)) (key pkgn nm : String) :
    implCountFor (cg ++ [(key, ⟨pkgn, []⟩)]) nm = implCountFor cg nm := by
  unfold implCountFor
  rw [List.map_append, List.sum_append]
  simp [countName]

/-- `ensureFile` preserves the C8 bundle. -/
theorem ensureFile_emitOK (ctx : SGCtx) (st : SGState) (id : Nat)
    (h : emitOK ctx st) : emitOK ctx (ensureFile ctx st id) := by
  unfold ensureFile
  cases hcf : findCF st.codegen (envInfo ctx id).pkgPath with
  | some f => exact h
  | none =>
    refine ⟨h.1, ?_, ?_⟩
    · rw [List.map_append]
      simp only [List.map_cons, List.map_nil]
      rw [List.nodup_append]
      refine ⟨h.2.1, List.nodup_singleton _, ?_⟩
      intro a ha hb
      rcases List.mem_singleton.mp hb with rfl
      rcases List.mem_map.mp ha with ⟨p, hp, hpe⟩
      exact findCF_none_not_mem st.codegen _ hcf p hp hpe
    · intro j hj
      rw [implCountFor_append_empty]
      exact h.2.2 j hj

/-- Raising generated flags can only raise the per-type emission bound. -/
theorem emit3_of_le (ctx : SGCtx) (cg : List (String × CodeFile)) (k k' : Known)
    (hle : KnownLE k k')
    (h : ∀ id, id < ctx.env.length →
      implCountFor cg (qnameOf ctx id) ≤ (if generatedIn k id = true then 1 else 0)) :
    ∀ id, id < ctx.env.length →
      implCountFor cg (qnameOf ctx id) ≤
        (if generatedIn k' id = true then 1 else 0) := by
  intro id hid
  by_cases hg : generatedIn k id = true
  · rw [hle id hg]
    simpa [hg] using h id hid
  · have h0 : implCountFor cg (qnameOf ctx id) = 0 := by
      have := h id hid
      rw [if_neg hg] at this
      omega
    rw [h0]
    exact Nat.zero_le _

/-- `generateType` preserves the C8 bundle: at most one implementation is
ever appended per named type, because the entry is marked generated before
synthesis and the function returns at once on a marked entry. -/
theorem generateType_emitOK (ctx : SGCtx) (hcl : envClosed ctx) (hinj : qnamesInj ctx) :
    ∀ (fuel : Nat) (pkgPath fileKey : String) (id : Nat) (st : SGState),
      id < ctx.env.length → emitOK ctx st →
      emitOK ctx (generateType ctx fuel pkgPath fileKey id st) := by
  intro fuel
  induction fuel with
  | zero => intro _ _ _ st _ h; exact h
  | succ fuel ih =>
    intro pkgPath fileKey id st hid h
    obtain ⟨hwf, hkeys, hcnt⟩ := h
    have hwf2 : knownWF ctx (setGenerated (getKnownType ctx st.known id).2 id) :=
      knownWF_setGenerated ctx _ id (knownWF_getKnownType ctx st.known id hid hwf)
    have hle1 : KnownLE st.known (setGenerated (getKnownType ctx st.known id).2 id) :=
      (KnownLE_getKnownType ctx st.known id).trans (KnownLE_setGenerated _ id)
    have hgen1 : generatedIn (setGenerated (getKnownType ctx st.known id).2 id) id = true :=
      generatedIn_setGenerated_self _ id _ (findTS_getKnownType_self ctx st.known id)
    have hcnt1 : ∀ j, j < ctx.env.length →
        implCountFor st.codegen (qnameOf ctx j) ≤
          (if generatedIn (setGenerated (getKnownType ctx st.known id).2 id) j = true
           then 1 else 0) :=
      emit3_of_le ctx st.codegen _ _ hle1 hcnt
    simp only [generateType]
    split
    · rename_i hgen
      refine ⟨knownWF_getKnownType ctx st.known id hid hwf, hkeys, fun j hj => ?_⟩
      rw [generatedIn_getKnownType]
      exact hcnt j hj
    · rename_i hgen
      have hgen0 : generatedIn st.known id = false := by
        have hfst := getKnownType_fst_generated ctx st.known id
        cases hb : generatedIn st.known id with
        | false => rfl
        | true => exact absurd (hfst.trans hb) hgen
      have hcnt0 : implCountFor st.codegen (qnameOf ctx id) = 0 := by
        have := hcnt id hid
        rw [hgen0] at this
        simpa using this
      split
      · rename_i fields heq
        have hidsB : fieldsIdsBelow ctx.env.length fields = true := by
          have hc := hcl id hid
          rw [heq] at hc
          simpa [idsBelow] using hc
        have hgeqW : ∀ j, generatedIn
            (sizeImplForStruct ctx fuel (setGenerated (getKnownType ctx st.known id).2 id)
              (envInfo ctx id).name fields).2.2 j =
            generatedIn (setGenerated (getKnownType ctx st.known id).2 id) j :=
          fun j => sizeImplForStruct_gen_eq ctx fuel _ _ fields j
        have hwfR : knownWF ctx
            (sizeImplForStruct ctx fuel (setGenerated (getKnownType ctx st.known id).2 id)
              (envInfo ctx id).name fields).2.2 :=
          sizeImplForStruct_wf ctx hcl fuel _ _ fields hwf2 hidsB
        split
        · rename_i impl hr
          refine ⟨hwfR, by rw [appendImpl_keys]; exact hkeys, fun j hj => ?_⟩
          by_cases hsame : qnameOf ctx j = qnameOf ctx id
          · have hji : j = id := hinj j hj id hid (hsame.trans rfl ▸ hsame)
            subst hji
            have hle2 := implCountFor_appendImpl_le st.codegen fileKey
              ⟨qnameOf ctx j, (sizeImplForStruct ctx fuel
                (setGenerated (getKnownType ctx st.known j).2 j)
                (envInfo ctx j).name fields).2.1, impl⟩ (qnameOf ctx j) hkeys
            rw [hcnt0] at hle2
            have hg : generatedIn
                (sizeImplForStruct ctx fuel (setGenerated (getKnownType ctx st.known j).2 j)
                  (envInfo ctx j).name fields).2.2 j = true := by
              rw [hgeqW j]
              exact hgen1
            rw [hg]
            simpa using hle2
          · have hne : ((⟨qnameOf ctx id, (sizeImplForStruct ctx fuel
                (setGenerated (getKnownType ctx st.known id).2 id)
                (envInfo ctx id).name fields).2.1, impl⟩ : CodeImpl).name ==
                  qnameOf ctx j) = false := by
              simp only [beq_eq_false_iff_ne, ne_eq]
              exact fun hx => hsame hx.symm
            rw [implCountFor_appendImpl_ne _ _ _ _ hne, hgeqW j]
            exact hcnt1 j hj
        · rename_i hr
          exact ⟨hwfR, hkeys, fun j hj => by rw [hgeqW j]; exact hcnt1 j hj⟩
      · rename_i empty ifid heq
        have hfold : ∀ (l : List Nat) (st' : SGState),
            (∀ i ∈ l, i < ctx.env.length) → emitOK ctx st' →
            emitOK ctx (l.foldl
              (fun st' i =>
                if (ctx.implementsVal i ifid || ctx.implementsPtr i ifid) && isStructU ctx i
                then generateType ctx fuel pkgPath fileKey i st'
                else st') st') := by
          intro l
          induction l with
          | nil => intro st' _ h'; exact h'
          | cons i is ihl =>
            intro st' hlt h'
            simp only [List.foldl_cons]
            by_cases hcond :
                ((ctx.implementsVal i ifid || ctx.implementsPtr i ifid) && isStructU ctx i) = true
            · rw [if_pos hcond]
              exact ihl _ (fun a ha => hlt a (List.mem_cons_of_mem i ha))
                (ih pkgPath fileKey i st' (hlt i (List.mem_cons_self i is)) h')
            · rw [if_neg hcond]
              exact ihl st' (fun a ha => hlt a (List.mem_cons_of_mem i ha)) h'
        exact hfold (scopeIds ctx pkgPath)
          ⟨setGenerated (getKnownType ctx st.known id).2 id, st.codegen⟩
          (scopeIds_lt ctx pkgPath) ⟨hwf2, hkeys, hcnt1⟩
      · exact ⟨hwf2, hkeys, hcnt1⟩

/-- `generateKnownType` preserves the C8 bundle. -/
theorem generateKnownType_emitOK (ctx : SGCtx) (hcl : envClosed ctx)
    (hinj : qnamesInj ctx) (fuel : Nat) (st : SGState) (id : Nat)
    (hid : id < ctx.env.length) (h : emitOK ctx st) :
    emitOK ctx (generateKnownType ctx fuel st id) := by
  unfold generateKnownType
  exact generateType_emitOK ctx hcl hinj fuel _ _ id _ hid
    (ensureFile_emitOK ctx st id h)

/-- One pass preserves the C8 bundle. -/
theorem passEntries_emitOK (ctx : SGCtx) (hcl : envClosed ctx) (hinj : qnamesInj ctx)
    (fuel : Nat) :
    ∀ (l : List Nat) (st : SGState) (c : Bool), emitOK ctx st →
      emitOK ctx (passEntries ctx fuel l (st, c)).1 := by
  intro l
  induction l with
  | nil => intro st c h; exact h
  | cons id rest ih =>
    intro st c h
    simp only [passEntries]
    cases hts : findTS st.known id with
    | none => exact ih st c h
    | some ts =>
      dsimp only
      by_cases hq : (ts.isLocal && !ts.pod && !ts.generated) = true
      · rw [if_pos hq]
        have hid : id < ctx.env.length :=
          (h.1.2 _ (findTS_some_mem st.known id ts hts)).1
        exact ih _ false (generateKnownType_emitOK ctx hcl hinj fuel st id hid h)
      · rw [if_neg hq]
        exact ih st c h

/-- The fixpoint loop preserves the C8 bundle. -/
theorem genRemaining_emitOK (ctx : SGCtx) (hcl : envClosed ctx) (hinj : qnamesInj ctx)
    (fuel : Nat) :
    ∀ (budget : Nat) (st : SGState), emitOK ctx st →
      emitOK ctx (genRemaining ctx fuel budget st) := by
  intro budget
  induction budget with
  | zero => intro st h; exact h
  | succ b ih =>
    intro st h
    simp only [genRemaining]
    have hp := passEntries_emitOK ctx hcl hinj fuel (st.known.map (fun p => p.1)) st true h
    by_cases hc : (passKnown ctx fuel st).2 = true
    · rw [if_pos hc]
      exact hp
    · rw [if_neg hc]
      exact ih (passKnown ctx fuel st).1 hp

/-- C8: over a whole run — the requested roots followed by the fixpoint
loop, starting from the empty registry and collection — at most one
implementation is ever appended for any named type, even on cyclic type
graphs: `generateType` returns immediately when the registry entry is
already marked generated and marks it generated before synthesizing. -/
theorem emission_at_most_once (ctx : SGCtx) (fuel passes : Nat) (roots : List Nat)
    (hcl : envClosed ctx) (hinj : qnamesInj ctx)
    (hroots : ∀ r ∈ roots, r < ctx.env.length) :
    ∀ id, id < ctx.env.length →
      implCountFor
        (genRemaining ctx fuel passes
          (roots.foldl (fun s r => generateKnownType ctx fuel s r) ⟨[], []⟩)).codegen
        (qnameOf ctx id) ≤ 1 := by
  intro id hid
  have hinit : emitOK ctx ⟨[], []⟩ := by
    refine ⟨⟨List.nodup_nil, fun p hp => absurd hp (List.not_mem_nil p)⟩,
      List.nodup_nil, fun j hj => ?_⟩
    simp [implCountFor]
  have hfold : ∀ (l : List Nat) (st : SGState), (∀ r ∈ l, r < ctx.env.length) →
      emitOK ctx st →
      emitOK ctx (l.foldl (fun s r => generateKnownType ctx fuel s r) st) := by
    intro l
    induction l with
    | nil => intro st _ h; exact h
    | cons r rs ihl =>
      intro st hlt h
      simp only [List.foldl_cons]
      exact ihl _ (fun a ha => hlt a (List.mem_cons_of_mem r ha))
        (generateKnownType_emitOK ctx hcl hinj fuel st r (hlt r (List.mem_cons_self r rs)) h)
  have hfin := genRemaining_emitOK ctx hcl hinj fuel passes _
    (hfold roots ⟨[], []⟩ hroots hinit)
  have := hfin.2.2 id hid
  by_cases hg : generatedIn
      (genRemaining ctx fuel passes
        (roots.foldl (fun s r => generateKnownType ctx fuel s r) ⟨[], []⟩)).known id = true
  · rw [if_pos hg] at this
    exact this
  · rw [if_neg hg] at this
    omega

/-! ### A concrete cyclic program instantiating C7 and C8 -/

/-- A two-type cycle `A → B → A` (each a struct holding a pointer to the
other), both declared in a locally owned package. -/
def envCyc : List NamedInfo :=
  [⟨("m/p"), ("p"), ("A"), .struct (.cons ("b") (.ptr (.named 1)) .nil)⟩,
   ⟨("m/p"), ("p"), ("B"), .struct (.cons ("a") (.ptr (.named 0)) .nil)⟩]

/-- Context of a run over the cycle, module root `m`. -/
def ctxCyc : SGCtx :=
  ⟨("m"), ("/d"), true, sz64, envCyc, fun _ _ => false, fun _ _ => false⟩

/-- The state after the root `A` is requested. -/
def stCyc0 : SGState :=
  ([0] : List Nat).foldl (fun s r => generateKnownType ctxCyc 4 s r) ⟨[], []⟩

/-- The full run over the cycle: root `A`, then the fixpoint loop. -/
def runCyc : SGState := genRemaining ctxCyc 4 3 stCyc0

/-- Witness for C8 on the cycle `A → B → A`: the run emits exactly one
method for `A` and one for `B`, and the theorem's at-most-once bound holds
at `A`. -/
theorem emission_at_most_once_witness :
    implCountFor runCyc.codegen ("m/p.A") = 1 ∧
      implCountFor runCyc.codegen ("m/p.B") = 1 ∧
      implCountFor runCyc.codegen (qnameOf ctxCyc 0) ≤ 1 :=
  ⟨by decide, by decide,
    emission_at_most_once ctxCyc 4 3 [0]
      (by unfold envClosed; decide) (by unfold qnamesInj; decide) (by decide) 0 (by decide)⟩

/-- Witness for C7 at the cycle program, from the state holding the
requested root. -/
theorem fixpoint_driver_terminates_witness :
    envClosed ctxCyc ∧ knownWF ctxCyc stCyc0.known ∧
      ((∀ id, generatedIn stCyc0.known id = true →
          generatedIn
            (genRemaining ctxCyc (3 + 1) (numLocalNonPod ctxCyc) stCyc0).known id = true) ∧
        (passKnown ctxCyc (3 + 1)
            (genRemaining ctxCyc (3 + 1) (numLocalNonPod ctxCyc) stCyc0)).2 = true) :=
  ⟨by unfold envClosed; decide, by unfold knownWF; decide,
    fixpoint_driver_terminates ctxCyc 3 stCyc0
      (by unfold envClosed; decide) (by unfold knownWF; decide)⟩

/-! ### C10: `generateCode` and the empty loaded slice -/

/-- One loaded package as `generateCode` consumes it: its path, its
top-level scope (type name to environment id), its module descriptor
(`pkg.Module`), and its size oracle (`pkg.TypesSizes`). -/
structure LoadedPkg where
  pkgPath : String
  pkgScope : List (String × Nat)
  modPath : String
  modDir : String
  pkgSizes : GoType → Nat

/-- Split a character list around its LAST dot
(`strings.LastIndexByte(gen, '.')`); `none` when there is no dot. -/
def splitLastDotAux : List Char → Option (List Char × List Char)
  | [] => none
  | c :: rest =>
    match splitLastDotAux rest with
    | some pt => some (c :: pt.1, pt.2)
    | none => if c = ('.') then some ([], rest) else none

/-- `gen[:pos]` and `gen[pos+1:]` around the last dot of `gen`. -/
def splitLastDot (s : String) : Option (String × String) :=
  (splitLastDotAux s.data).map (fun pt => (⟨pt.1⟩, ⟨pt.2⟩))

/-- Assoc-list lookup of a package scope by path. -/
def findScope : List (String × List (String × Nat)) → String → Option (List (String × Nat))
  | [], _ => none
  | p :: rest, key => if p.1 = key then some p.2 else findScope rest key

/-- `scope.Lookup(typename)` (restricted to named types). -/
def findName : List (String × Nat) → String → Option Nat
  | [], _ => none
  | p :: rest, key => if p.1 = key then some p.2 else findName rest key

/-- The `--gen` loop of `generateCode`: for each requested root, an
unparseable name (no dot), an unknown package, or an unknown type aborts
with an error; otherwise the root is generated. -/
def processGens (ctx : SGCtx) (fuel : Nat)
    (scopes : List (String × List (String × Nat))) :
    List String → SGState → Except String SGState
  | [], st => .ok st
  | gen :: rest, st =>
    match splitLastDot gen with
    | none => .error (("unexpected input type: ") ++ gen)
    | some pt =>
      match findScope scopes pt.1 with
      | none => .error (("no scope found for type ") ++ gen)
      | some scope =>
        match findName scope pt.2 with
        | none => .error (("no type called ") ++ pt.2 ++ (" found in ") ++ pt.1)
        | some id => processGens ctx fuel scopes rest (generateKnownType ctx fuel st id)

/-- `generateCode` from sizegen.go: reads `loaded[0].Module` and
`loaded[0].TypesSizes` without checking that the loader returned any
package.  The out-of-range index on the empty slice is a Go runtime panic,
modelled as `none`; every checked failure is `some (.error _)`. -/
def generateCodeM (env : List NamedInfo) (iv ip : Nat → Nat → Bool) (fuel : Nat)
    (loaded : List LoadedPkg) (generate : List String) :
    Option (Except String SGState) :=
  match loaded with
  | [] => none
  | first :: _ =>
    let ctx : SGCtx :=
      ⟨first.modPath, first.modDir, true, first.pkgSizes, env, iv, ip⟩
    let scopes := loaded.map (fun p => (p.pkgPath, p.pkgScope))
    some (processGens ctx fuel scopes generate ⟨[], []⟩)

/-- C10: `generateCode` panics (none) on an empty loaded slice, for every
`--gen` list — it never reaches its error-returning paths; on a nonempty
slice the unparseable-root failure, by contrast, is returned as an error
value. -/
theorem generateCode_empty_loaded_panics :
    (∀ (env : List NamedInfo) (iv ip : Nat → Nat → Bool) (fuel : Nat)
        (generate : List String),
      generateCodeM env iv ip fuel [] generate = none) ∧
      generateCodeM [] (fun _ _ => false) (fun _ _ => false) 1
          [⟨("p"), [], ("p"), ("/p"), fun _ => 8⟩] [("nodot")] =
        some (.error (("unexpected input type: ") ++ ("nodot"))) :=
  ⟨fun _ _ _ _ _ => rfl, rfl⟩

end Sizegen
